import Mathlib

/-!
# goresearch: signal mixing and convolution

A verification development for `goresearch/lib.go` and the numeric core of
`goresearch/cmd/calc_noise_mix/main.go`.

## Conventions of the embedding

* A Go slice is a `List`. A `float64` is an exact number of an ordered field `K`
  (`ℚ` for evaluation, `ℝ` where `math.Sqrt` and `math.Pow` occur): rounding and
  overflow of floating-point arithmetic are not modelled. The conversion `float64(s)`
  of an `int` does round, to the 53 significant bits of the format (`float64OfInt`).
* A run-time panic (index out of range, slice bounds out of range, `make` with a
  negative length, `floats.Max` of an empty slice, `rand.Intn` of a non-positive
  bound) is the result `none`.
* A division whose divisor can be zero yields `Amp.nonFinite`, standing for the
  IEEE results `±Inf` and `NaN`.
* Functions that update their argument in place return the updated slice.
-/

namespace Goresearch

open Finset

/-! ## Run-time primitives of Go -/

/-- The allocation `make([]T, n)`: `n` zero values, and a panic when `n` is negative. -/
def makeSlice {K : Type} [Zero K] (n : Int) : Option (List K) :=
  if 0 ≤ n then some (List.replicate n.toNat 0) else none

/-- The slice expression `s[lo:hi]` of a slice whose capacity is its length (every
slice built by `make([]T, len)` is one): a panic unless `0 ≤ lo ≤ hi ≤ len(s)`. -/
def sliceRange {K : Type} (s : List K) (lo hi : Int) : Option (List K) :=
  if 0 ≤ lo ∧ lo ≤ hi ∧ hi ≤ (s.length : Int) then
    some ((s.drop lo.toNat).take (hi - lo).toNat)
  else none

/-- The loop `for _, a := range l` whose body may panic, collecting one result per element. -/
def forEachM {α β : Type} (f : α → Option β) : List α → Option (List β)
  | [] => some []
  | a :: t => do
    let b ← f a
    let bs ← forEachM f t
    some (b :: bs)

/-- The call `rand.Intn(n)` of `math/rand`: a panic when `n ≤ 0`, otherwise the value in
`[0, n)` that the generator output `r` is reduced to. -/
def randIntn (n : Int) (r : Nat) : Option Int :=
  if n ≤ 0 then none else some ((r : Int) % n)

/-- The function `floats.Max` of gonum: the largest element, and a panic on an empty slice. -/
def floatsMax {K : Type} [LinearOrder K] : List K → Option K
  | [] => none
  | x :: t => some (t.foldl (fun m v => if v > m then v else m) x)

/-- The assignment `s[i] = v`: a panic when `i` is out of range. -/
def setAt {K : Type} (s : List K) (i : Nat) (v : K) : Option (List K) :=
  if i < s.length then some (s.set i v) else none

/-- The conversion `float64(s)` of an `int` (at most 64 bits), as the integer it denotes:
`s` itself up to `2^53` in absolute value, and beyond that `s` rounded to 53 significant
bits, to the nearest multiple of `ulp = 2^(e-52)` where `2^e ≤ |s| < 2^(e+1)`, a tie going to
the even multiple. -/
def float64OfInt (s : Int) : Int :=
  let m := s.natAbs
  if m ≤ 2 ^ 53 then s
  else
    let e := Nat.log2 m
    let ulp := 2 ^ (e - 52)
    let q := m / ulp
    let rem := m % ulp
    let half := ulp / 2
    let q2 := if rem < half then q else if half < rem then q + 1
      else if q % 2 = 0 then q else q + 1
    s.sign * ((q2 * ulp : Nat) : Int)

/-- A `float64` where a zero divisor can occur: a finite number, or a non-finite value
(`±Inf`, `NaN`). -/
inductive Amp (K : Type) where
  | num (x : K)
  | nonFinite
  deriving DecidableEq

/-- The quotient `a / b` of two finite numbers: non-finite when `b` is zero. -/
def Amp.quot {K : Type} [Field K] [DecidableEq K] (a b : K) : Amp K :=
  if b = 0 then Amp.nonFinite else Amp.num (a / b)

/-- The product of IEEE arithmetic, with a finite left factor: a non-finite factor gives
a non-finite product. -/
def Amp.mul {K : Type} [Field K] : Amp K → Amp K → Amp K
  | Amp.num a, Amp.num b => Amp.num (a * b)
  | _, _ => Amp.nonFinite

/-- The sum of IEEE arithmetic: a non-finite summand gives a non-finite sum. -/
def Amp.add {K : Type} [Field K] : Amp K → Amp K → Amp K
  | Amp.num a, Amp.num b => Amp.num (a + b)
  | _, _ => Amp.nonFinite

/-- The constant `math.MaxInt16`. -/
def MaxInt16 : Nat := 32767

/-- The conversion `int(s)` of a `float64` whose truncation lies in the range of the
64-bit `int`, `-2^63 ≤ int(s) < 2^63`: the fraction is discarded (truncation towards zero).
Outside that range the result of Go is implementation-dependent and is not modelled: the
theorems of C7, C16 and C18 keep the converted values within the range. -/
def truncToInt {K : Type} [LinearOrderedField K] [FloorRing K] (s : K) : Int :=
  if 0 ≤ s then ⌊s⌋ else ⌈s⌉

/-! ## lib.go -/

/-- The function `AbsFloat64s` (lib.go 173-179). -/
def AbsFloat64s {K : Type} [LinearOrderedField K] (fs : List K) : List K :=
  fs.map (fun v => |v|)

/-- The function `NormToMaxInt16` (lib.go 161-171): when the peak exceeds `math.MaxInt16+1`, every
sample is multiplied by `math.MaxInt16 / maxAmp`. -/
def NormToMaxInt16 {K : Type} [LinearOrderedField K] (data : List K) : Option (List K) := do
  let maxAmp ← floatsMax (AbsFloat64s data)
  if maxAmp > (MaxInt16 : K) + 1 then
    let reductionRate := (MaxInt16 : K) / maxAmp
    some (data.map (fun x => x * reductionRate))
  else
    some data

/-- The function `Float64sToInts` (lib.go 217-223). -/
def Float64sToInts {K : Type} [LinearOrderedField K] [FloorRing K] (fs : List K) : List Int :=
  fs.map truncToInt

/-- The function `IntsToFloat64s` (lib.go 225-231). -/
def IntsToFloat64s {K : Type} [LinearOrderedField K] (is : List Int) : List K :=
  is.map (fun s => ((float64OfInt s : Int) : K))

/-- The function `LinSpace` (lib.go 196-207); `n` is a Go `int`. -/
def LinSpace {K : Type} [Field K] (start end_ : K) (n : Int) : Option (List K) := do
  let res ← makeSlice n
  if n = 1 then
    setAt res 0 end_
  else
    let delta := (end_ - start) / ((n : K) - 1)
    (List.range n.toNat).foldlM (fun res i => setAt res i (start + delta * (i : K))) res

/-- The function `CalcRMS` (lib.go 25-31). For an empty slice Go divides `0` by `0`; the value is
meaningful for a non-empty slice only. -/
noncomputable def CalcRMS (amp : List ℝ) : ℝ :=
  let sum := amp.foldl (fun sum v => sum + v * v) 0
  Real.sqrt (sum / (amp.length : ℝ))

/-- The loop and the return of `MSE` (lib.go 152-157): the value, and a `nil` error. The
quotient `sum / float64(len(a))` has a zero divisor when `a` is empty. -/
def mseLoop {K : Type} [Field K] [DecidableEq K] (a b : List K) :
    Option (Amp K × Option String) := do
  let sum ← (List.range a.length).foldlM (fun (sum : K) i => do
    let x ← a[i]?
    let y ← b[i]?
    some (sum + (x - y) * (x - y))) 0
  some (Amp.quot sum (a.length : K), none)

/-- The function `MSE` (lib.go 145-159). The argument `b` is `none` for a `nil` slice; the
result is the pair of the returned value and the returned error. -/
def MSE {K : Type} [Field K] [DecidableEq K] (a : List K) (b : Option (List K)) :
    Option (Amp K × Option String) :=
  match b with
  | none => do
    let b2 ← makeSlice (a.length : Int)
    mseLoop a b2
  | some b2 =>
    if a.length ≠ b2.length then some (Amp.num 0, some "length of a and b must agree")
    else mseLoop a b2

/-- The function `CalcAdjustedRMS` (lib.go 19-23). -/
noncomputable def CalcAdjustedRMS (cleanRMS snr : ℝ) : ℝ :=
  let a := snr / 20
  cleanRMS / ((10 : ℝ) ^ a)

/-- The inner loop of `Convolve` (lib.go 260-265) for one output index `i`. -/
def convNode {K : Type} [Semiring K] (xs ys : List K) (i sumLen : Nat) : Option K :=
  (List.range sumLen).foldlM
    (fun (nodeSum : K) (j : Nat) =>
      if (i : Int) - (j : Int) < 0 then some nodeSum
      else do
        let x ← xs[i - j]?
        let y ← ys[j]?
        some (nodeSum + x * y))
    0

/-- The outer loop of `Convolve` (lib.go 259-268): `rs[i] = nodeSum` for `i < convLen`. -/
def convLoop {K : Type} [Semiring K] (xs ys : List K) (convLen sumLen : Nat) :
    Option (List K) :=
  forEachM (fun i => convNode xs ys i sumLen) (List.range convLen)

/-- The function `Convolve` (lib.go 248-270). In the `else` branch `convLen` and `sumLen` are
swapped, `xs` and `ys` are not. -/
def Convolve {K : Type} [Semiring K] (xs ys : List K) : Option (List K) :=
  let convLen := xs.length
  let sumLen := ys.length
  if convLen > sumLen then do
    let pad ← makeSlice ((convLen : Int) - (sumLen : Int))
    convLoop xs (ys ++ pad) convLen sumLen
  else do
    let pad ← makeSlice ((sumLen : Int) - (convLen : Int))
    convLoop (xs ++ pad) ys sumLen convLen

/-- The function `Float64sToComplex128s` (lib.go 232-238). -/
def Float64sToComplex128s (fs : List ℝ) : List ℂ :=
  fs.map (fun f => (⟨f, 0⟩ : ℂ))

/-- The function `Complex128sToFloat64s` (lib.go 240-246). -/
def Complex128sToFloat64s (cs : List ℂ) : List ℝ :=
  cs.map (fun c => c.re)

/-- The transform `fft.FFT` of go-dsp, as the exact discrete Fourier transform
`X[k] = Σ_n x[n] e^(-2πi·kn/N)`. -/
noncomputable def FFT (x : List ℂ) : List ℂ :=
  (List.range x.length).map (fun (k : Nat) =>
    ∑ n in range x.length,
      x.getD n 0 * Complex.exp (-(2 * Real.pi * Complex.I * (k : ℂ) * (n : ℂ) / (x.length : ℂ))))

/-- The transform `fft.IFFT` of go-dsp, as the exact inverse discrete Fourier transform
`x[n] = (1/N) Σ_k X[k] e^(2πi·kn/N)`. -/
noncomputable def IFFT (x : List ℂ) : List ℂ :=
  (List.range x.length).map (fun (n : Nat) =>
    (∑ k in range x.length,
      x.getD k 0 * Complex.exp (2 * Real.pi * Complex.I * (k : ℂ) * (n : ℂ) / (x.length : ℂ)))
      / (x.length : ℂ))

/-- The function `FastConvolve` (lib.go 273-300), the progress output left out. -/
noncomputable def FastConvolve (xs ys : List ℝ) : Option (List ℝ) := do
  let L : Int := xs.length
  let N : Int := ys.length
  let M : Int := N + L - 1
  let padx ← makeSlice (M - L)
  let xsz := xs ++ padx
  let pady ← makeSlice (M - N)
  let ysz := ys ++ pady
  let _ ← (makeSlice M : Option (List ℝ))
  let _ ← (makeSlice M : Option (List ℂ))
  let Xs := FFT (Float64sToComplex128s xsz)
  let Ys := FFT (Float64sToComplex128s ysz)
  let Rs ← forEachM (fun i => do
      let X ← Xs[i]?
      let Y ← Ys[i]?
      some (X * Y)) (List.range M.toNat)
  some (Complex128sToFloat64s (IFFT Rs))

/-! ## cmd/calc_noise_mix/main.go -/

/-- The alignment step (main.go 97-109); `r` is the generator output behind `rand.Intn`.
Returns `(cleanAMP, cutNoiseAmp)`. -/
def alignSignals {K : Type} (cleanAMP noiseAMP : List K) (r : Nat) :
    Option (List K × List K) :=
  if cleanAMP.length = noiseAMP.length then do
    let start : Int := 0
    let cutNoiseAmp ← sliceRange noiseAMP start (start + cleanAMP.length)
    some (cleanAMP, cutNoiseAmp)
  else if cleanAMP.length > noiseAMP.length then do
    let start ← randIntn ((cleanAMP.length : Int) - (noiseAMP.length : Int)) r
    let cleanAMP2 ← sliceRange cleanAMP start (start + cleanAMP.length)
    some (cleanAMP2, noiseAMP)
  else do
    let start ← randIntn ((noiseAMP.length : Int) - (cleanAMP.length : Int)) r
    let cutNoiseAmp ← sliceRange noiseAMP start (start + cleanAMP.length)
    some (cleanAMP, cutNoiseAmp)

/-- The body of the mixing loop (main.go 132-133) at index `i` with noise sample `v`:
`adjustedNoiseAmp[i] = v * (adjustedNoiseRMS / noiseRMS)` and
`mixedAmp[i] = cleanAMP[i] + adjustedNoiseAmp[i]`. -/
def mixBody {K : Type} [Field K] [DecidableEq K] (adjustedNoiseRMS noiseRMS : K)
    (cleanAMP : List K) (p : Nat × K) : Option (Amp K × Amp K) := do
  let i := p.1
  let v := p.2
  let adjusted := Amp.mul (Amp.num v) (Amp.quot adjustedNoiseRMS noiseRMS)
  let c ← cleanAMP[i]?
  some (adjusted, Amp.add (Amp.num c) adjusted)

/-- The mixing loop `for i, v := range cutNoiseAmp` (main.go 131-134) for one sweep point.
Returns `(adjustedNoiseAmp, mixedAmp)`. -/
def mixLoop {K : Type} [Field K] [DecidableEq K] (adjustedNoiseRMS noiseRMS : K)
    (cleanAMP cutNoiseAmp : List K) : Option (List (Amp K) × List (Amp K)) := do
  let rows ← forEachM (mixBody adjustedNoiseRMS noiseRMS cleanAMP) cutNoiseAmp.enum
  some rows.unzip

/-- One sweep point of `main` (main.go 95-134) before the clip guard: the RMS of the
clean signal, the alignment, the RMS of the cut noise, the adjusted RMS, the mixing loop. -/
noncomputable def mixSweepPoint (cleanAMP noiseAMP : List ℝ) (r : Nat) (snr : ℝ) :
    Option (List (Amp ℝ) × List (Amp ℝ)) := do
  let cleanRMS := CalcRMS cleanAMP
  let (cleanAMP2, cutNoiseAmp) ← alignSignals cleanAMP noiseAMP r
  let noiseRMS := CalcRMS cutNoiseAmp
  let adjustedNoiseRMS := CalcAdjustedRMS cleanRMS snr
  mixLoop adjustedNoiseRMS noiseRMS cleanAMP2 cutNoiseAmp

/-! ## Reference definitions, following the words of the specification -/

/-- The discrete convolution sum `Σ_j xs[i-j]*ys[j]` over all `j` with `0 ≤ j < len(ys)`
and `0 ≤ i-j < len(xs)`. -/
def convSum {K : Type} [Semiring K] (xs ys : List K) (i : Nat) : K :=
  ∑ j in range ys.length,
    if j ≤ i ∧ i - j < xs.length then xs.getD (i - j) 0 * ys.getD j 0 else 0

/-- The full linear convolution: `len(xs) + len(ys) - 1` convolution sums. -/
def linearConv {K : Type} [Semiring K] (xs ys : List K) : List K :=
  (List.range (xs.length + ys.length - 1)).map (convSum xs ys)

/-- The peak `max(|x_i|)` of a signal. -/
def peak {K : Type} [LinearOrderedField K] (signal : List K) : K :=
  (signal.map (fun x => |x|)).foldr max 0

/-- The reference clip guard: if `peak > maxAbsValue`, every sample is scaled by
`maxAbsValue / peak`; otherwise the signal is returned unchanged. -/
def clipGuard {K : Type} [LinearOrderedField K] (signal : List K) (maxAbsValue : K) : List K :=
  if peak signal > maxAbsValue then signal.map (fun x => x * maxAbsValue / peak signal)
  else signal

/-! ## Closed form of the loops of `Convolve` -/

/-- What `Convolve` accumulates at index `i`: the terms with `j < min(len(xs), len(ys))`
and `j ≤ i`, an index past the end of `xs` reading the zero padding. -/
def codeSum {K : Type} [Semiring K] (xs ys : List K) (i : Nat) : K :=
  ∑ j in range (min xs.length ys.length),
    if j ≤ i then xs.getD (i - j) 0 * ys.getD j 0 else 0

/-! ## Loops that do not panic -/

theorem forEachM_eq_some {α β : Type} (f : α → Option β) (g : α → β) (l : List α)
    (h : ∀ a ∈ l, f a = some (g a)) : forEachM f l = some (l.map g) := by
  induction l with
  | nil => simp [forEachM]
  | cons a t ih =>
    have h1 := h a (by simp)
    have h2 := ih (fun b hb => h b (by simp [hb]))
    simp [forEachM, h1, h2]

theorem foldlM_eq_some {α β : Type} (f : β → α → Option β) (g : β → α → β) (l : List α)
    (h : ∀ b, ∀ a ∈ l, f b a = some (g b a)) (b : β) :
    l.foldlM f b = some (l.foldl g b) := by
  induction l generalizing b with
  | nil => simp
  | cons a t ih =>
    have h1 := h b a (by simp)
    simp [List.foldlM_cons, h1]
    exact ih (fun b c hc => h b c (by simp [hc])) _

theorem foldl_range_eq_sum {K : Type} [AddCommMonoid K] (t : Nat → K) (n : Nat) :
    (List.range n).foldl (fun acc j => acc + t j) 0 = ∑ j in range n, t j := by
  induction n with
  | zero => simp
  | succ n ih => simp [List.range_succ, List.foldl_append, Finset.sum_range_succ, ih]

theorem getD_append_zeros {K : Type} [Zero K] (xs : List K) (k n : Nat) :
    (xs ++ List.replicate k 0).getD n 0 = xs.getD n 0 := by
  rcases Nat.lt_or_ge n xs.length with h | h
  · simp [List.getD_eq_getElem?_getD, List.getElem?_append_left h]
  · rw [List.getD_eq_getElem?_getD, List.getD_eq_getElem?_getD, List.getElem?_append_right h,
      List.getElem?_eq_none h]
    by_cases h2 : n - xs.length < k
    · simp [List.getElem?_replicate, h2]
    · simp [List.getElem?_replicate, h2]

/-! ## Convolve -/

theorem convNode_eq {K : Type} [Semiring K] (xs ys : List K) (i sumLen : Nat)
    (hi : i < xs.length) (hs : sumLen ≤ ys.length) :
    convNode xs ys i sumLen
      = some (∑ j in range sumLen, if j ≤ i then xs.getD (i - j) 0 * ys.getD j 0 else 0) := by
  unfold convNode
  rw [foldlM_eq_some _
    (fun acc j => acc + (if j ≤ i then xs.getD (i - j) 0 * ys.getD j 0 else 0))]
  · rw [foldl_range_eq_sum]
  · intro b j hj
    have hj2 : j < ys.length := lt_of_lt_of_le (List.mem_range.mp hj) hs
    by_cases hji : j ≤ i
    · have h1 : ¬ ((i : Int) - (j : Int) < 0) := by omega
      have h2 : i - j < xs.length := by omega
      simp [h1, hji, List.getD_eq_getElem?_getD, List.getElem?_eq_getElem h2,
        List.getElem?_eq_getElem hj2]
    · have h1 : (i : Int) - (j : Int) < 0 := by omega
      simp [h1, hji]

/-- No index of `Convolve` is out of range: the call always returns, with `codeSum` at
each of its `max(len(xs), len(ys))` indices. -/
theorem Convolve_eq {K : Type} [Semiring K] (xs ys : List K) :
    Convolve xs ys = some ((List.range (max xs.length ys.length)).map (codeSum xs ys)) := by
  unfold Convolve
  by_cases h : xs.length > ys.length
  · have hm : max xs.length ys.length = xs.length := max_eq_left (le_of_lt h)
    have hn : min xs.length ys.length = ys.length := min_eq_right (le_of_lt h)
    have h0 : (0 : Int) ≤ (xs.length : Int) - (ys.length : Int) := by omega
    simp only [h, if_true, makeSlice, h0, Option.bind_eq_bind, Option.some_bind, convLoop, hm]
    apply forEachM_eq_some
    intro i hi
    rw [convNode_eq _ _ _ _ (List.mem_range.mp hi) (by simp)]
    simp only [codeSum, hn, getD_append_zeros]
  · have hle : xs.length ≤ ys.length := not_lt.mp h
    have hm : max xs.length ys.length = ys.length := max_eq_right hle
    have hn : min xs.length ys.length = xs.length := min_eq_left hle
    have h0 : (0 : Int) ≤ (ys.length : Int) - (xs.length : Int) := by omega
    simp only [h, if_false, makeSlice, h0, if_true, Option.bind_eq_bind, Option.some_bind,
      convLoop, hm]
    apply forEachM_eq_some
    intro i hi
    rw [convNode_eq _ _ _ _ (by simp; have := List.mem_range.mp hi; omega) hle]
    simp only [codeSum, hn, getD_append_zeros]

theorem codeSum_eq_convSum {K : Type} [Semiring K] (xs ys : List K) (i : Nat)
    (hlen : ys.length ≤ xs.length) (hi : i < xs.length) :
    codeSum xs ys i = convSum xs ys i := by
  unfold codeSum convSum
  rw [min_eq_right hlen]
  apply Finset.sum_congr rfl
  intro j _
  by_cases hji : j ≤ i
  · have h2 : i - j < xs.length := by omega
    simp [hji, h2]
  · simp [hji]

/-! ## FastConvolve and the discrete Fourier transform -/

theorem FastConvolve_none (xs ys : List ℝ) (h : xs = [] ∨ ys = []) :
    FastConvolve xs ys = none := by
  unfold FastConvolve
  rcases h with h | h
  · subst h
    by_cases h1 : (0:Int) ≤ (ys.length : Int) + (([] : List ℝ).length : Int) - 1 - (([] : List ℝ).length : Int)
    · have h2 : ¬ ((0:Int) ≤ (ys.length : Int) + (([] : List ℝ).length : Int) - 1 - (ys.length : Int)) := by
        simp
      simp [makeSlice, h1, h2]
    · simp [makeSlice, h1]
  · subst h
    have h1 : ¬ ((0:Int) ≤ ((([] : List ℝ).length : Int) + (xs.length : Int) - 1 - (xs.length : Int))) := by
      simp
    simp [makeSlice, h1]

theorem FastConvolve_eq (xs ys : List ℝ) (hx : xs ≠ []) (hy : ys ≠ []) :
    FastConvolve xs ys = some (Complex128sToFloat64s (IFFT
      ((List.range (xs.length + ys.length - 1)).map (fun i =>
        (FFT (Float64sToComplex128s (xs ++ List.replicate (ys.length - 1) 0))).getD i 0 *
        (FFT (Float64sToComplex128s (ys ++ List.replicate (xs.length - 1) 0))).getD i 0)))) := by
  have h1 : 0 < xs.length := List.length_pos.mpr hx
  have h2 : 0 < ys.length := List.length_pos.mpr hy
  have e1 : ((xs.length + ys.length - 1 : Nat) : Int) - (xs.length : Int) = ((ys.length - 1 : Nat) : Int) := by omega
  have e2 : ((xs.length + ys.length - 1 : Nat) : Int) - (ys.length : Int) = ((xs.length - 1 : Nat) : Int) := by omega
  have e3 : (ys.length : Int) + (xs.length : Int) - 1 = ((xs.length + ys.length - 1 : Nat) : Int) := by omega
  unfold FastConvolve
  simp only [e3, e1, e2, makeSlice, Int.toNat_ofNat, Int.natCast_nonneg, if_true, Option.bind_eq_bind, Option.some_bind]
  rw [forEachM_eq_some _ (fun i =>
        (FFT (Float64sToComplex128s (xs ++ List.replicate (ys.length - 1) 0))).getD i 0 *
        (FFT (Float64sToComplex128s (ys ++ List.replicate (xs.length - 1) 0))).getD i 0)]
  · simp
  · intro i hi
    have hi2 := List.mem_range.mp hi
    have l1 : i < (FFT (Float64sToComplex128s (xs ++ List.replicate (ys.length - 1) 0))).length := by
      simp [FFT, Float64sToComplex128s]; omega
    have l2 : i < (FFT (Float64sToComplex128s (ys ++ List.replicate (xs.length - 1) 0))).length := by
      simp [FFT, Float64sToComplex128s]; omega
    simp [List.getD_eq_getElem?_getD, List.getElem?_eq_getElem l1, List.getElem?_eq_getElem l2]

theorem dft_orthogonality (M : ℕ) (hM : 0 < M) (m : ℤ) :
    ∑ k in range M, Complex.exp (2 * Real.pi * Complex.I * (k : ℂ) * (m : ℂ) / (M : ℂ))
      = if (M : ℤ) ∣ m then (M : ℂ) else 0 := by
  have hM0 : (M : ℂ) ≠ 0 := by exact_mod_cast hM.ne'
  have hpi : (2 * Real.pi * Complex.I : ℂ) ≠ 0 := Complex.two_pi_I_ne_zero
  set w : ℂ := Complex.exp (2 * Real.pi * Complex.I * (m : ℂ) / (M : ℂ)) with hw
  have hterm : ∀ k : ℕ,
      Complex.exp (2 * Real.pi * Complex.I * (k : ℂ) * (m : ℂ) / (M : ℂ)) = w ^ k := by
    intro k
    rw [hw, ← Complex.exp_nat_mul]
    congr 1
    ring
  simp only [hterm]
  have hwM : w ^ M = 1 := by
    rw [hw, ← Complex.exp_nat_mul, Complex.exp_eq_one_iff]
    exact ⟨m, by field_simp; ring⟩
  have hw1 : w = 1 ↔ (M : ℤ) ∣ m := by
    rw [hw, Complex.exp_eq_one_iff]
    constructor
    · rintro ⟨n, hn⟩
      refine ⟨n, ?_⟩
      have h2 : (m : ℂ) = (n : ℂ) * (M : ℂ) := by
        field_simp at hn
        have := mul_left_cancel₀ hpi (by linear_combination hn : (2 * Real.pi * Complex.I : ℂ) * (m : ℂ) = (2 * Real.pi * Complex.I : ℂ) * ((n : ℂ) * (M : ℂ)))
        exact this
      have h3 : (m : ℂ) = ((n * M : ℤ) : ℂ) := by rw [h2]; push_cast; ring
      have h4 : m = n * M := by exact_mod_cast h3
      rw [h4]; ring
    · rintro ⟨n, hn⟩
      refine ⟨n, ?_⟩
      rw [hn]; push_cast; field_simp; ring
  by_cases hd : (M : ℤ) ∣ m
  · have : w = 1 := hw1.mpr hd
    simp [hd, this]
  · have hne : w ≠ 1 := fun h => hd (hw1.mp h)
    have hne2 : w - 1 ≠ 0 := sub_ne_zero.mpr hne
    have hg := geom_sum_mul w M
    rw [hwM, sub_self] at hg
    rcases mul_eq_zero.mp hg with h | h
    · simp [hd, h]
    · exact absurd h hne2

theorem idft_mul_dft (M : ℕ) (hM : 0 < M) (x y : ℕ → ℂ) (n : ℕ) :
    (∑ k in range M,
        ((∑ a in range M,
            x a * Complex.exp (-(2 * Real.pi * Complex.I * (k : ℂ) * (a : ℂ) / (M : ℂ)))) *
          (∑ b in range M,
            y b * Complex.exp (-(2 * Real.pi * Complex.I * (k : ℂ) * (b : ℂ) / (M : ℂ))))) *
        Complex.exp (2 * Real.pi * Complex.I * (k : ℂ) * (n : ℂ) / (M : ℂ))) / (M : ℂ)
      = ∑ a in range M, ∑ b in range M,
          if (M : ℤ) ∣ (n : ℤ) - (a : ℤ) - (b : ℤ) then x a * y b else 0 := by
  have hM0 : (M : ℂ) ≠ 0 := by exact_mod_cast hM.ne'
  have hterm : ∀ k a b : ℕ,
      x a * Complex.exp (-(2 * Real.pi * Complex.I * (k : ℂ) * (a : ℂ) / (M : ℂ))) *
        (y b * Complex.exp (-(2 * Real.pi * Complex.I * (k : ℂ) * (b : ℂ) / (M : ℂ)))) *
        Complex.exp (2 * Real.pi * Complex.I * (k : ℂ) * (n : ℂ) / (M : ℂ))
      = x a * y b *
        Complex.exp (2 * Real.pi * Complex.I * (k : ℂ) *
          (((n : ℤ) - (a : ℤ) - (b : ℤ) : ℤ) : ℂ) / (M : ℂ)) := by
    intro k a b
    have : Complex.exp (2 * Real.pi * Complex.I * (k : ℂ) *
          (((n : ℤ) - (a : ℤ) - (b : ℤ) : ℤ) : ℂ) / (M : ℂ))
        = Complex.exp (-(2 * Real.pi * Complex.I * (k : ℂ) * (a : ℂ) / (M : ℂ))) *
          Complex.exp (-(2 * Real.pi * Complex.I * (k : ℂ) * (b : ℂ) / (M : ℂ))) *
          Complex.exp (2 * Real.pi * Complex.I * (k : ℂ) * (n : ℂ) / (M : ℂ)) := by
      rw [← Complex.exp_add, ← Complex.exp_add]
      congr 1
      push_cast
      ring
    rw [this]; ring
  have hsum : ∀ k : ℕ,
      ((∑ a in range M,
            x a * Complex.exp (-(2 * Real.pi * Complex.I * (k : ℂ) * (a : ℂ) / (M : ℂ)))) *
          (∑ b in range M,
            y b * Complex.exp (-(2 * Real.pi * Complex.I * (k : ℂ) * (b : ℂ) / (M : ℂ))))) *
        Complex.exp (2 * Real.pi * Complex.I * (k : ℂ) * (n : ℂ) / (M : ℂ))
      = ∑ a in range M, ∑ b in range M, x a * y b *
        Complex.exp (2 * Real.pi * Complex.I * (k : ℂ) *
          (((n : ℤ) - (a : ℤ) - (b : ℤ) : ℤ) : ℂ) / (M : ℂ)) := by
    intro k
    rw [Finset.sum_mul_sum, Finset.sum_mul]
    apply Finset.sum_congr rfl
    intro a _
    rw [Finset.sum_mul]
    apply Finset.sum_congr rfl
    intro b _
    exact hterm k a b
  simp only [hsum]
  rw [Finset.sum_comm, Finset.sum_div]
  apply Finset.sum_congr rfl
  intro a _
  rw [Finset.sum_comm, Finset.sum_div]
  apply Finset.sum_congr rfl
  intro b _
  rw [← Finset.mul_sum, dft_orthogonality M hM]
  by_cases hd : (M : ℤ) ∣ (n : ℤ) - (a : ℤ) - (b : ℤ)
  · simp only [hd, if_true]; field_simp
  · simp [hd]

theorem circular_eq_linear (L N : ℕ) (hL : 0 < L) (x y : ℕ → ℂ)
    (hx : ∀ a, L ≤ a → x a = 0) (hy : ∀ b, N ≤ b → y b = 0) (n : ℕ) (hn : n < L + N - 1) :
    ∑ a in range (L + N - 1), ∑ b in range (L + N - 1),
        (if ((L + N - 1 : ℕ) : ℤ) ∣ (n : ℤ) - (a : ℤ) - (b : ℤ) then x a * y b else 0)
      = ∑ b in range N, if b ≤ n ∧ n - b < L then x (n - b) * y b else 0 := by
  have hNM : N ≤ L + N - 1 := by omega
  rw [Finset.sum_comm]
  rw [← Finset.sum_subset (Finset.range_subset.mpr hNM)]
  · apply Finset.sum_congr rfl
    intro b hb
    have hb2 : b < N := Finset.mem_range.mp hb
    have key : ∀ a, a ∈ range (L + N - 1) →
        (if ((L + N - 1 : ℕ) : ℤ) ∣ (n : ℤ) - (a : ℤ) - (b : ℤ) then x a * y b else 0)
          = if a = n - b ∧ b ≤ n ∧ n - b < L then x (n - b) * y b else 0 := by
      intro a ha
      have ha2 : a < L + N - 1 := Finset.mem_range.mp ha
      by_cases haL : a < L
      · by_cases hd : ((L + N - 1 : ℕ) : ℤ) ∣ (n : ℤ) - (a : ℤ) - (b : ℤ)
        · obtain ⟨c, hc⟩ := hd
          have hMpos : (0 : ℤ) < ((L + N - 1 : ℕ) : ℤ) := by omega
          have hc0 : c = 0 := by
            by_contra hne
            rcases lt_or_gt_of_ne hne with h | h
            · have h3 : c ≤ -1 := by omega
              have h4 := mul_le_mul_of_nonneg_left h3 (le_of_lt hMpos)
              omega
            · have h3 : 1 ≤ c := by omega
              have h4 := mul_le_mul_of_nonneg_left h3 (le_of_lt hMpos)
              omega
          subst hc0
          have hab : a + b = n := by omega
          have h1 : a = n - b ∧ b ≤ n ∧ n - b < L := by omega
          have h2 : ((L + N - 1 : ℕ) : ℤ) ∣ (n : ℤ) - (a : ℤ) - (b : ℤ) := ⟨0, hc⟩
          rw [if_pos h2, if_pos h1, h1.1]
        · have h1 : ¬ (a = n - b ∧ b ≤ n ∧ n - b < L) := by
            rintro ⟨h1, h2, _⟩
            apply hd
            refine ⟨0, ?_⟩
            omega
          rw [if_neg hd, if_neg h1]
      · have h0 : x a = 0 := hx a (not_lt.mp haL)
        have h1 : ¬ (a = n - b ∧ b ≤ n ∧ n - b < L) := by omega
        rw [if_neg h1, h0]; simp
    rw [Finset.sum_congr rfl key]
    by_cases hc : b ≤ n ∧ n - b < L
    · rw [Finset.sum_eq_single (n - b)]
      · simp [hc]
      · intro a _ hne
        simp [hne]
      · intro hnot
        exfalso; apply hnot
        rw [Finset.mem_range]; omega
    · rw [if_neg hc]
      apply Finset.sum_eq_zero
      intro a _
      have : ¬ (a = n - b ∧ b ≤ n ∧ n - b < L) := fun h => hc h.2
      simp [this]
  · intro b _ hb
    have hb2 : N ≤ b := by
      rw [Finset.mem_range] at hb; omega
    apply Finset.sum_eq_zero
    intro a _
    rw [hy b hb2]; simp

theorem FFT_getD (x : List ℂ) (k : ℕ) (hk : k < x.length) :
    (FFT x).getD k 0 = ∑ n in range x.length,
      x.getD n 0 * Complex.exp (-(2 * Real.pi * Complex.I * (k : ℂ) * (n : ℂ) / (x.length : ℂ))) := by
  have h : k < (FFT x).length := by simpa [FFT] using hk
  rw [List.getD_eq_getElem?_getD, List.getElem?_eq_getElem h]
  simp [FFT]

theorem padded_getD (xs : List ℝ) (p a : ℕ) :
    (Float64sToComplex128s (xs ++ List.replicate p 0)).getD a 0 = ((xs.getD a 0 : ℝ) : ℂ) := by
  have h : (Float64sToComplex128s (xs ++ List.replicate p 0)).getD a 0
      = (((xs ++ List.replicate p 0).getD a 0 : ℝ) : ℂ) := by
    unfold Float64sToComplex128s
    rw [List.getD_eq_getElem?_getD, List.getD_eq_getElem?_getD, List.getElem?_map]
    cases (xs ++ List.replicate p 0)[a]? with
    | none => simp
    | some v => simp; rfl
  rw [h, getD_append_zeros]

theorem getD_eq_zero_of_le (xs : List ℝ) (a : ℕ) (h : xs.length ≤ a) : xs.getD a 0 = 0 := by
  rw [List.getD_eq_getElem?_getD, List.getElem?_eq_none h]; rfl

/-- With the exact transform pair, `FastConvolve` of two non-empty sequences returns the full
linear convolution. -/
theorem FastConvolve_eq_linearConv (xs ys : List ℝ) (hx : xs ≠ []) (hy : ys ≠ []) :
    FastConvolve xs ys = some (linearConv xs ys) := by
  have h1 : 0 < xs.length := List.length_pos.mpr hx
  have h2 : 0 < ys.length := List.length_pos.mpr hy
  have hM : 0 < xs.length + ys.length - 1 := by omega
  have lx : (Float64sToComplex128s (xs ++ List.replicate (ys.length - 1) 0)).length
      = xs.length + ys.length - 1 := by
    simp [Float64sToComplex128s]; omega
  have ly : (Float64sToComplex128s (ys ++ List.replicate (xs.length - 1) 0)).length
      = xs.length + ys.length - 1 := by
    simp [Float64sToComplex128s]; omega
  rw [FastConvolve_eq xs ys hx hy]
  congr 1
  unfold linearConv Complex128sToFloat64s IFFT
  simp only [List.length_map, List.length_range, List.map_map]
  apply List.map_congr_left
  intro n hn
  have hn2 : n < xs.length + ys.length - 1 := List.mem_range.mp hn
  have hR : ∀ k ∈ range (xs.length + ys.length - 1),
      ((List.range (xs.length + ys.length - 1)).map (fun i =>
        (FFT (Float64sToComplex128s (xs ++ List.replicate (ys.length - 1) 0))).getD i 0 *
        (FFT (Float64sToComplex128s (ys ++ List.replicate (xs.length - 1) 0))).getD i 0)).getD k 0
        * Complex.exp (2 * Real.pi * Complex.I * (k : ℂ) * (n : ℂ) /
            ((xs.length + ys.length - 1 : ℕ) : ℂ))
      = ((∑ a in range (xs.length + ys.length - 1), ((xs.getD a 0 : ℝ) : ℂ) *
            Complex.exp (-(2 * Real.pi * Complex.I * (k : ℂ) * (a : ℂ) /
              ((xs.length + ys.length - 1 : ℕ) : ℂ)))) *
          (∑ b in range (xs.length + ys.length - 1), ((ys.getD b 0 : ℝ) : ℂ) *
            Complex.exp (-(2 * Real.pi * Complex.I * (k : ℂ) * (b : ℂ) /
              ((xs.length + ys.length - 1 : ℕ) : ℂ))))) *
        Complex.exp (2 * Real.pi * Complex.I * (k : ℂ) * (n : ℂ) /
            ((xs.length + ys.length - 1 : ℕ) : ℂ)) := by
    intro k hk
    have hk2 : k < xs.length + ys.length - 1 := Finset.mem_range.mp hk
    rw [List.getD_eq_getElem?_getD, List.getElem?_map, List.getElem?_range hk2]
    simp only [Option.map_some', Option.getD_some]
    rw [FFT_getD _ k (by rw [lx]; exact hk2), FFT_getD _ k (by rw [ly]; exact hk2), lx, ly]
    simp only [padded_getD]
  simp only [Function.comp]
  rw [Finset.sum_congr rfl hR, idft_mul_dft _ hM,
    circular_eq_linear xs.length ys.length h1 _ _
      (fun a ha => by rw [getD_eq_zero_of_le xs a ha]; simp)
      (fun b hb => by rw [getD_eq_zero_of_le ys b hb]; simp) n hn2]
  unfold convSum
  rw [← Complex.ofReal_re (∑ j in range ys.length,
    if j ≤ n ∧ n - j < xs.length then xs.getD (n - j) 0 * ys.getD j 0 else 0)]
  congr 1
  rw [Complex.ofReal_sum]
  apply Finset.sum_congr rfl
  intro j _
  by_cases hc : j ≤ n ∧ n - j < xs.length
  · simp [hc]
  · simp [hc]

/-- C1, the claim as stated fails: `Convolve([1,0,0], [1,1,1])` returns 3 elements, not
`3 + 3 - 1 = 5`. -/
theorem C1_length_counterexample :
    ∃ rs, Convolve ([1, 0, 0] : List ℚ) [1, 1, 1] = some rs ∧ rs.length = 3 ∧
      rs.length ≠ ([1, 0, 0] : List ℚ).length + ([1, 1, 1] : List ℚ).length - 1 := by
  refine ⟨[1, 1, 1], ?_, by simp, by simp⟩
  simp [Convolve, convLoop, convNode, makeSlice, List.range_succ, forEachM]

/-- C1, amended: for every pair of non-empty sequences `xs` and `ys`, `Convolve(xs, ys)`
returns a sequence of length `max(len(xs), len(ys))`; that length is
`len(xs) + len(ys) - 1` exactly when one of the two sequences has a single element. -/
theorem C1_Convolve_length {K : Type} [Semiring K] (xs ys : List K)
    (hx : xs ≠ []) (hy : ys ≠ []) :
    ∃ rs, Convolve xs ys = some rs ∧ rs.length = max xs.length ys.length ∧
      (rs.length = xs.length + ys.length - 1 ↔ xs.length = 1 ∨ ys.length = 1) := by
  refine ⟨_, Convolve_eq xs ys, by simp, ?_⟩
  have h1 : 0 < xs.length := List.length_pos.mpr hx
  have h2 : 0 < ys.length := List.length_pos.mpr hy
  simp only [List.length_map, List.length_range]
  rcases le_total xs.length ys.length with h | h
  · rw [max_eq_right h]; omega
  · rw [max_eq_left h]; omega

theorem C1_Convolve_length_witness :
    ∃ rs, Convolve ([1, 2, 3] : List ℚ) [1, 1] = some rs ∧
      rs.length = max ([1, 2, 3] : List ℚ).length ([1, 1] : List ℚ).length ∧
      (rs.length = ([1, 2, 3] : List ℚ).length + ([1, 1] : List ℚ).length - 1 ↔
        ([1, 2, 3] : List ℚ).length = 1 ∨ ([1, 1] : List ℚ).length = 1) :=
  C1_Convolve_length [1, 2, 3] [1, 1] (by simp) (by simp)

/-- C2, the claim as stated fails: `Convolve([1,0,0], [1,1,1])` is `[1,1,1]`, not
`[1,1,1,0,0]`. -/
theorem C2_example_counterexample :
    Convolve ([1, 0, 0] : List ℚ) [1, 1, 1] = some [1, 1, 1] ∧
      Convolve ([1, 0, 0] : List ℚ) [1, 1, 1] ≠ some [1, 1, 1, 0, 0] := by
  have h : Convolve ([1, 0, 0] : List ℚ) [1, 1, 1] = some [1, 1, 1] := by
    simp [Convolve, convLoop, convNode, makeSlice, List.range_succ, forEachM]
  exact ⟨h, by rw [h]; simp⟩

/-- C2, amended: for every pair of sequences with `len(xs) ≥ len(ys)`, `Convolve(xs, ys)`
returns `len(xs)` elements and the element at every index `i` equals the discrete
convolution sum of `xs[i-j]*ys[j]` over all `j` with `0 ≤ j < len(ys)` and
`0 ≤ i-j < len(xs)`; in particular `Convolve([1,0,0], [1,1,1])` equals `[1,1,1]`. -/
theorem C2_Convolve_elements {K : Type} [Semiring K] (xs ys : List K)
    (hlen : ys.length ≤ xs.length) :
    (∃ rs, Convolve xs ys = some rs ∧ rs.length = xs.length ∧
      ∀ i, i < rs.length → rs[i]? = some (convSum xs ys i)) ∧
    Convolve ([1, 0, 0] : List ℚ) [1, 1, 1] = some [1, 1, 1] := by
  refine ⟨⟨_, Convolve_eq xs ys, by simp [max_eq_left hlen], ?_⟩, ?_⟩
  · intro i hi
    have hi2 : i < xs.length := by simpa [max_eq_left hlen] using hi
    have hi3 : i < max xs.length ys.length := by rw [max_eq_left hlen]; exact hi2
    simp [List.getElem?_map, List.getElem?_range hi3, codeSum_eq_convSum xs ys i hlen hi2]
  · simp [Convolve, convLoop, convNode, makeSlice, List.range_succ, forEachM]

theorem C2_Convolve_elements_witness :
    (∃ rs, Convolve ([1, 2, 3] : List ℚ) [1, 1] = some rs ∧
      rs.length = ([1, 2, 3] : List ℚ).length ∧
      ∀ i, i < rs.length → rs[i]? = some (convSum ([1, 2, 3] : List ℚ) [1, 1] i)) ∧
    Convolve ([1, 0, 0] : List ℚ) [1, 1, 1] = some [1, 1, 1] :=
  C2_Convolve_elements [1, 2, 3] [1, 1] (by simp)

theorem linearConv_length {K : Type} [Semiring K] (xs ys : List K) :
    (linearConv xs ys).length = xs.length + ys.length - 1 := by
  simp [linearConv]

theorem Convolve_of_empty {K : Type} [Semiring K] (xs ys : List K) (h : xs = [] ∨ ys = []) :
    Convolve xs ys = some (List.replicate (max xs.length ys.length) 0) := by
  rw [Convolve_eq]
  congr 1
  have hmin : min xs.length ys.length = 0 := by
    rcases h with h | h <;> simp [h]
  apply List.ext_getElem
  · simp
  · intro i h1 h2
    simp [codeSum, hmin]

/-- C3, the claim as stated fails: for `a = [1,0,0]` and `b = [1,1,1]`, `Convolve` returns
3 elements and `FastConvolve` returns 5. -/
theorem C3_length_counterexample :
    ∃ r1 r2, Convolve ([1, 0, 0] : List ℝ) [1, 1, 1] = some r1 ∧
      FastConvolve [1, 0, 0] [1, 1, 1] = some r2 ∧
      r1.length = 3 ∧ r2.length = 5 ∧ r1.length ≠ r2.length := by
  refine ⟨_, _, Convolve_eq _ _, FastConvolve_eq_linearConv _ _ (by simp) (by simp), ?_, ?_, ?_⟩
  · simp
  · simp [linearConv]
  · simp [linearConv]

/-- C3, amended: for every pair of non-empty finite sequences `a` and `b`,
`FastConvolve(a, b)` returns `len(a)+len(b)-1` elements and `Convolve(a, b)` returns
`max(len(a), len(b))` elements; when `len(a) ≥ len(b)` the two outputs agree element by
element at every index of `Convolve(a, b)` (exactly, the FFT/IFFT pair being the exact
discrete Fourier transform and its inverse), both holding the discrete convolution sum. -/
theorem C3_Convolve_FastConvolve (a b : List ℝ) (ha : a ≠ []) (hb : b ≠ []) :
    ∃ r1 r2, Convolve a b = some r1 ∧ FastConvolve a b = some r2 ∧
      r1.length = max a.length b.length ∧ r2.length = a.length + b.length - 1 ∧
      (b.length ≤ a.length →
        ∀ i, i < r1.length → r1[i]? = r2[i]? ∧ r2[i]? = some (convSum a b i)) := by
  refine ⟨_, _, Convolve_eq a b, FastConvolve_eq_linearConv a b ha hb, by simp,
    linearConv_length a b, ?_⟩
  intro hlen i hi
  have h1 : 0 < b.length := List.length_pos.mpr hb
  have hi2 : i < a.length := by simpa [max_eq_left hlen] using hi
  have hi3 : i < max a.length b.length := by rw [max_eq_left hlen]; exact hi2
  have hi4 : i < a.length + b.length - 1 := by omega
  have e2 : (linearConv a b)[i]? = some (convSum a b i) := by
    simp [linearConv, List.getElem?_map, List.getElem?_range hi4]
  refine ⟨?_, e2⟩
  rw [e2]
  simp [List.getElem?_map, List.getElem?_range hi3, codeSum_eq_convSum a b i hlen hi2]

theorem C3_Convolve_FastConvolve_witness :
    ∃ r1 r2, Convolve ([1, 2, 3] : List ℝ) [1, 1] = some r1 ∧
      FastConvolve [1, 2, 3] [1, 1] = some r2 ∧
      r1.length = max ([1, 2, 3] : List ℝ).length ([1, 1] : List ℝ).length ∧
      r2.length = ([1, 2, 3] : List ℝ).length + ([1, 1] : List ℝ).length - 1 ∧
      (([1, 1] : List ℝ).length ≤ ([1, 2, 3] : List ℝ).length →
        ∀ i, i < r1.length →
          r1[i]? = r2[i]? ∧ r2[i]? = some (convSum ([1, 2, 3] : List ℝ) [1, 1] i)) :=
  C3_Convolve_FastConvolve [1, 2, 3] [1, 1] (by simp) (by simp)

/-- C4, the claim as stated fails: with an empty first input, `Convolve([], [1,2])` returns
`[0,0]`, not the empty sequence, and `FastConvolve([], [1,2])` panics. -/
theorem C4_empty_input_counterexample :
    Convolve ([] : List ℝ) [1, 2] = some [0, 0] ∧ FastConvolve [] [1, 2] = none := by
  constructor
  · simp [Convolve, convLoop, convNode, makeSlice, List.range_succ, forEachM]
  · exact FastConvolve_none _ _ (Or.inl rfl)

/-- C4, amended: whenever at least one of the two input sequences is empty, `Convolve`
does not fail and returns `max(len(xs), len(ys))` zeros (the empty sequence exactly when
both inputs are empty), and `FastConvolve` has no empty-input handling: the allocation of
its zero padding has a negative length, so the call panics and returns no sequence. -/
theorem C4_empty_input (xs ys : List ℝ) (h : xs = [] ∨ ys = []) :
    Convolve xs ys = some (List.replicate (max xs.length ys.length) 0) ∧
      (Convolve xs ys = some [] ↔ xs = [] ∧ ys = []) ∧
      FastConvolve xs ys = none := by
  refine ⟨Convolve_of_empty xs ys h, ?_, FastConvolve_none xs ys h⟩
  rw [Convolve_of_empty xs ys h]
  constructor
  · intro h2
    have h3 : max xs.length ys.length = 0 := by
      have := congrArg (fun o => (o.map List.length)) h2
      simpa using this
    have h4 : xs.length = 0 ∧ ys.length = 0 := by
      constructor
      · have := le_max_left xs.length ys.length; omega
      · have := le_max_right xs.length ys.length; omega
    exact ⟨List.length_eq_zero.mp h4.1, List.length_eq_zero.mp h4.2⟩
  · rintro ⟨h1, h2⟩
    simp [h1, h2]

theorem C4_empty_input_witness :
    Convolve ([] : List ℝ) [1, 2]
        = some (List.replicate (max ([] : List ℝ).length ([1, 2] : List ℝ).length) 0) ∧
      (Convolve ([] : List ℝ) [1, 2] = some [] ↔ ([] : List ℝ) = [] ∧ ([1, 2] : List ℝ) = []) ∧
      FastConvolve [] [1, 2] = none :=
  C4_empty_input [] [1, 2] (Or.inl rfl)

/-! ## NormToMaxInt16 -/

theorem foldl_max_spec {K : Type} [LinearOrder K] (t : List K) (x : K) :
    t.foldl (fun m v => if v > m then v else m) x = t.foldl max x := by
  induction t generalizing x with
  | nil => rfl
  | cons a t ih =>
    simp only [List.foldl_cons]
    rw [ih]
    congr 1
    by_cases h : a > x
    · simp [h, max_eq_right (le_of_lt h)]
    · simp [h, max_eq_left (not_lt.mp h)]

theorem foldl_max_ge {K : Type} [LinearOrder K] (t : List K) (x : K) :
    x ≤ t.foldl max x ∧ ∀ y ∈ t, y ≤ t.foldl max x := by
  induction t generalizing x with
  | nil => simp
  | cons a t ih =>
    simp only [List.foldl_cons, List.mem_cons]
    obtain ⟨h1, h2⟩ := ih (max x a)
    refine ⟨le_trans (le_max_left x a) h1, ?_⟩
    rintro y (rfl | hy)
    · exact le_trans (le_max_right x y) h1
    · exact h2 y hy

theorem foldl_max_mem {K : Type} [LinearOrder K] (t : List K) (x : K) :
    t.foldl max x ∈ x :: t := by
  induction t generalizing x with
  | nil => simp
  | cons a t ih =>
    simp only [List.foldl_cons]
    have h := ih (max x a)
    rcases List.mem_cons.mp h with h | h
    · rcases max_choice x a with hc | hc
      · rw [h, hc]; simp
      · rw [h, hc]; simp
    · simp [h]

theorem floatsMax_spec {K : Type} [LinearOrder K] (l : List K) (hl : l ≠ []) :
    ∃ m, floatsMax l = some m ∧ m ∈ l ∧ ∀ y ∈ l, y ≤ m := by
  cases l with
  | nil => exact absurd rfl hl
  | cons x t =>
    refine ⟨t.foldl max x, ?_, foldl_max_mem t x, ?_⟩
    · simp [floatsMax, foldl_max_spec]
    · intro y hy
      rcases List.mem_cons.mp hy with h | h
      · rw [h]; exact (foldl_max_ge t x).1
      · exact (foldl_max_ge t x).2 y h

theorem peak_spec {K : Type} [LinearOrderedField K] (signal : List K) :
    0 ≤ peak signal ∧ (∀ x ∈ signal, |x| ≤ peak signal) ∧
      (signal ≠ [] → ∃ x ∈ signal, |x| = peak signal) := by
  induction signal with
  | nil => simp [peak]
  | cons a t ih =>
    obtain ⟨h0, h1, h2⟩ := ih
    have e : peak (a :: t) = max |a| (peak t) := by simp [peak]
    rw [e]
    refine ⟨le_trans h0 (le_max_right _ _), ?_, ?_⟩
    · intro x hx
      rcases List.mem_cons.mp hx with h | h
      · rw [h]; exact le_max_left _ _
      · exact le_trans (h1 x h) (le_max_right _ _)
    · intro _
      rcases max_choice |a| (peak t) with hc | hc
      · exact ⟨a, by simp, hc.symm⟩
      · by_cases ht : t = []
        · subst ht
          refine ⟨a, by simp, ?_⟩
          have : peak ([] : List K) = 0 := by simp [peak]
          rw [this]
          exact (max_eq_left (abs_nonneg a)).symm
        · obtain ⟨x, hx, hxe⟩ := h2 ht
          exact ⟨x, by simp [hx], by rw [hc]; exact hxe⟩

/-- The value `floats.Max(AbsFloat64s(data))` of a non-empty signal is its peak. -/
theorem floatsMax_abs_eq_peak {K : Type} [LinearOrderedField K] (data : List K)
    (hd : data ≠ []) : floatsMax (AbsFloat64s data) = some (peak data) := by
  have hne : AbsFloat64s data ≠ [] := by simpa [AbsFloat64s] using hd
  obtain ⟨m, hm, hmem, hmax⟩ := floatsMax_spec (AbsFloat64s data) hne
  obtain ⟨h0, h1, h2⟩ := peak_spec data
  rw [hm]
  congr 1
  apply le_antisymm
  · simp only [AbsFloat64s, List.mem_map] at hmem
    obtain ⟨x, hx, hxe⟩ := hmem
    rw [← hxe]; exact h1 x hx
  · obtain ⟨x, hx, hxe⟩ := h2 hd
    rw [← hxe]
    exact hmax _ (by simp only [AbsFloat64s, List.mem_map]; exact ⟨x, hx, rfl⟩)

/-- The call `NormToMaxInt16(data)` on a non-empty signal returns: the samples times
`32767 / peak` when the peak exceeds `32768`, the samples themselves otherwise. -/
theorem NormToMaxInt16_eq {K : Type} [LinearOrderedField K] (data : List K) (hd : data ≠ []) :
    NormToMaxInt16 data
      = some (if peak data > 32768 then data.map (fun x => x * (32767 / peak data)) else data) := by
  have e : (32767 : K) + 1 = 32768 := by norm_num
  have e2 : ((MaxInt16 : ℕ) : K) = 32767 := by simp [MaxInt16]
  unfold NormToMaxInt16
  rw [floatsMax_abs_eq_peak data hd]
  simp only [Option.bind_eq_bind, Option.some_bind, e2, e]
  by_cases h : peak data > 32768
  · simp [h]
  · simp [h]

theorem NormToMaxInt16_bound {K : Type} [LinearOrderedField K] (data : List K) (hd : data ≠ []) :
    ∃ out, NormToMaxInt16 data = some out ∧ out ≠ [] ∧ ∀ x ∈ out, |x| ≤ 32768 := by
  obtain ⟨h0, h1, _⟩ := peak_spec data
  refine ⟨_, NormToMaxInt16_eq data hd, ?_, ?_⟩
  · by_cases h : peak data > 32768
    · simpa [h] using hd
    · simpa [h] using hd
  · intro x hx
    by_cases h : peak data > 32768
    · simp only [h, if_true, List.mem_map] at hx
      obtain ⟨y, hy, rfl⟩ := hx
      have hp : 0 < peak data := lt_trans (by norm_num) h
      rw [abs_mul, abs_div, abs_of_pos hp, abs_of_pos (by norm_num : (0:K) < 32767)]
      have := h1 y hy
      calc |y| * (32767 / peak data) ≤ peak data * (32767 / peak data) :=
            mul_le_mul_of_nonneg_right this (by positivity)
        _ = 32767 := by field_simp
        _ ≤ 32768 := by norm_num
    · simp only [h, if_false] at hx
      exact le_trans (h1 x hx) (not_lt.mp h)


/-- C5: for every non-empty signal, `NormToMaxInt16` returns a signal whose largest
absolute sample value `floats.Max(AbsFloat64s(out))` is at most 32768, so every sample
has absolute value at most 32768. -/
theorem C5_NormToMaxInt16_peak {K : Type} [LinearOrderedField K] (data : List K)
    (hd : data ≠ []) :
    ∃ out p, NormToMaxInt16 data = some out ∧ floatsMax (AbsFloat64s out) = some p ∧
      p ≤ 32768 ∧ ∀ x ∈ out, |x| ≤ 32768 := by
  obtain ⟨out, ho, hne, hb⟩ := NormToMaxInt16_bound data hd
  refine ⟨out, peak out, ho, floatsMax_abs_eq_peak out hne, ?_, hb⟩
  obtain ⟨x, hx, hxe⟩ := (peak_spec out).2.2 hne
  rw [← hxe]
  exact hb x hx

theorem C5_NormToMaxInt16_peak_witness :
    ∃ out p, NormToMaxInt16 ([40000, -65536] : List ℚ) = some out ∧
      floatsMax (AbsFloat64s out) = some p ∧ p ≤ 32768 ∧ ∀ x ∈ out, |x| ≤ 32768 :=
  C5_NormToMaxInt16_peak [40000, -65536] (by simp)

/-- C6, the claim as stated fails: for the signal `[65536]` the code returns `[32767]`, the
reference clip guard with `maxAbsValue = 32768` returns `[32768]`. -/
theorem C6_scale_counterexample :
    NormToMaxInt16 ([65536] : List ℚ) = some [32767] ∧
      clipGuard ([65536] : List ℚ) 32768 = [32768] ∧
      NormToMaxInt16 ([65536] : List ℚ) ≠ some (clipGuard ([65536] : List ℚ) 32768) := by
  have h1 : NormToMaxInt16 ([65536] : List ℚ) = some [32767] := by
    rw [NormToMaxInt16_eq _ (by simp)]
    norm_num [peak]
  have h2 : clipGuard ([65536] : List ℚ) 32768 = [32768] := by
    norm_num [clipGuard, peak]
  refine ⟨h1, h2, ?_⟩
  rw [h1, h2]
  norm_num

/-- C6, amended: for every non-empty signal with `peak = max|x_i|`, if `peak > 32768` every
output sample of `NormToMaxInt16` is `x_i * 32767 / peak` (the scale is
`math.MaxInt16 / peak`, not `32768 / peak`), otherwise the output equals the input
exactly. -/
theorem C6_NormToMaxInt16_scale {K : Type} [LinearOrderedField K] (data : List K)
    (hd : data ≠ []) :
    NormToMaxInt16 data
      = some (if peak data > 32768 then data.map (fun x => x * 32767 / peak data) else data) := by
  rw [NormToMaxInt16_eq data hd]
  congr 2
  apply List.map_congr_left
  intro x _
  rw [mul_div_assoc]

theorem C6_NormToMaxInt16_scale_witness :
    NormToMaxInt16 ([40000, -65536] : List ℚ)
      = some (if peak ([40000, -65536] : List ℚ) > 32768 then
          ([40000, -65536] : List ℚ).map (fun x => x * 32767 / peak ([40000, -65536] : List ℚ))
        else [40000, -65536]) :=
  C6_NormToMaxInt16_scale [40000, -65536] (by simp)

/-- C7, evaluated at the failing input: the signal `[32768]` has peak `32768`, which is not
above `math.MaxInt16+1`, so `NormToMaxInt16` leaves it unchanged and `Float64sToInts`
yields the integer `32768`, outside `[-32768, 32767]`. -/
theorem C7_sample_32768_overflows :
    ∃ out, NormToMaxInt16 ([32768] : List ℚ) = some out ∧ Float64sToInts out = [32768] ∧
      ¬ (∀ z ∈ Float64sToInts out, -32768 ≤ z ∧ z ≤ 32767) := by
  have h1 : NormToMaxInt16 ([32768] : List ℚ) = some [32768] := by
    rw [NormToMaxInt16_eq _ (by simp)]
    norm_num [peak]
  have h2 : Float64sToInts ([32768] : List ℚ) = [32768] := by
    simp [Float64sToInts, truncToInt]
  refine ⟨_, h1, h2, ?_⟩
  rw [h2]
  simp

/-! ## The alignment step -/

theorem alignSignals_equal {K : Type} (cleanAMP noiseAMP : List K) (r : Nat)
    (h : cleanAMP.length = noiseAMP.length) :
    alignSignals cleanAMP noiseAMP r = some (cleanAMP, noiseAMP) := by
  unfold alignSignals
  simp [h, sliceRange]

theorem alignSignals_cleanLonger {K : Type} (cleanAMP noiseAMP : List K) (r : Nat)
    (h : cleanAMP.length > noiseAMP.length) :
    alignSignals cleanAMP noiseAMP r
      = if r % (cleanAMP.length - noiseAMP.length) = 0 then some (cleanAMP, noiseAMP)
        else none := by
  unfold alignSignals
  have h1 : ¬ cleanAMP.length = noiseAMP.length := by omega
  have hn : ¬ ((cleanAMP.length : Int) - (noiseAMP.length : Int) ≤ 0) := by omega
  have e : (r : Int) % ((cleanAMP.length : Int) - (noiseAMP.length : Int))
      = ((r % (cleanAMP.length - noiseAMP.length) : Nat) : Int) := by
    rw [Int.natCast_mod, Nat.cast_sub (le_of_lt h)]
  simp only [h1, if_false, h, if_true, randIntn, hn, Option.bind_eq_bind, Option.some_bind,
    sliceRange, e]
  generalize r % (cleanAMP.length - noiseAMP.length) = s
  by_cases h0 : s = 0
  · simp [h0]
  · have h3 : ¬ ((0 : Int) ≤ (s : Int) ∧ (s : Int) ≤ (s : Int) + (cleanAMP.length : Int) ∧
        (s : Int) + (cleanAMP.length : Int) ≤ (cleanAMP.length : Int)) := by omega
    simp only [h3, if_false, h0]
    rfl

theorem alignSignals_noiseLonger {K : Type} (cleanAMP noiseAMP : List K) (r : Nat)
    (h : cleanAMP.length < noiseAMP.length) :
    alignSignals cleanAMP noiseAMP r
      = some (cleanAMP,
          (noiseAMP.drop (r % (noiseAMP.length - cleanAMP.length))).take cleanAMP.length) := by
  unfold alignSignals
  have h1 : ¬ cleanAMP.length = noiseAMP.length := by omega
  have h2 : ¬ cleanAMP.length > noiseAMP.length := by omega
  have hn : ¬ ((noiseAMP.length : Int) - (cleanAMP.length : Int) ≤ 0) := by omega
  have e : (r : Int) % ((noiseAMP.length : Int) - (cleanAMP.length : Int))
      = ((r % (noiseAMP.length - cleanAMP.length) : Nat) : Int) := by
    rw [Int.natCast_mod, Nat.cast_sub (le_of_lt h)]
  have hlt : r % (noiseAMP.length - cleanAMP.length) < noiseAMP.length - cleanAMP.length :=
    Nat.mod_lt _ (by omega)
  simp only [h1, if_false, h2, randIntn, hn, Option.bind_eq_bind, Option.some_bind,
    sliceRange, e]
  generalize r % (noiseAMP.length - cleanAMP.length) = s at hlt
  have h3 : (0 : Int) ≤ (s : Int) ∧ (s : Int) ≤ (s : Int) + (cleanAMP.length : Int) ∧
        (s : Int) + (cleanAMP.length : Int) ≤ (noiseAMP.length : Int) := by omega
  simp only [h3, and_self, if_true]
  simp

/-- When the alignment step returns, the clean signal is the one it was given and the
cut noise is no longer than it. -/
theorem alignSignals_some {K : Type} (cleanAMP noiseAMP : List K) (r : Nat)
    (cleanAMP2 cutNoiseAmp : List K)
    (h : alignSignals cleanAMP noiseAMP r = some (cleanAMP2, cutNoiseAmp)) :
    cleanAMP2 = cleanAMP ∧ cutNoiseAmp.length ≤ cleanAMP.length := by
  rcases lt_trichotomy cleanAMP.length noiseAMP.length with h1 | h1 | h1
  · rw [alignSignals_noiseLonger _ _ _ h1] at h
    simp only [Option.some.injEq, Prod.mk.injEq] at h
    obtain ⟨rfl, rfl⟩ := h
    exact ⟨rfl, by simp⟩
  · rw [alignSignals_equal _ _ _ h1] at h
    simp only [Option.some.injEq, Prod.mk.injEq] at h
    obtain ⟨rfl, rfl⟩ := h
    exact ⟨rfl, by omega⟩
  · rw [alignSignals_cleanLonger _ _ _ h1] at h
    split at h
    · simp only [Option.some.injEq, Prod.mk.injEq] at h
      obtain ⟨rfl, rfl⟩ := h
      exact ⟨rfl, by omega⟩
    · simp at h

/-- C10, evaluated at the failing input `clean = [1,2,3]`, `noise = [5]`: `rand.Intn(2)` can
return 1 and 0; with start 1 the slice `cleanAMP[1:4]` is out of range and the step panics,
with start 0 the clean signal keeps its 3 samples next to 1 noise sample. -/
theorem C10_clean_longer_not_truncated :
    alignSignals ([1, 2, 3] : List ℚ) [5] 1 = none ∧
      alignSignals ([1, 2, 3] : List ℚ) [5] 0 = some ([1, 2, 3], [5]) ∧
      ([1, 2, 3] : List ℚ).length ≠ min ([1, 2, 3] : List ℚ).length ([5] : List ℚ).length := by
  refine ⟨?_, ?_, by simp⟩
  · rw [alignSignals_cleanLonger _ _ _ (by simp)]; simp
  · rw [alignSignals_cleanLonger _ _ _ (by simp)]; simp

/-! ## The mixing loop -/

theorem mixRows_eq {K : Type} [Field K] [DecidableEq K] (adjustedNoiseRMS noiseRMS : K)
    (cleanAMP cutNoiseAmp : List K) (k : Nat) (h : k + cutNoiseAmp.length ≤ cleanAMP.length) :
    (forEachM (mixBody adjustedNoiseRMS noiseRMS cleanAMP) (cutNoiseAmp.enumFrom k)).map
        List.unzip
      = some (cutNoiseAmp.map
            (fun v => Amp.mul (Amp.num v) (Amp.quot adjustedNoiseRMS noiseRMS)),
          List.zipWith (fun c v => Amp.add (Amp.num c)
            (Amp.mul (Amp.num v) (Amp.quot adjustedNoiseRMS noiseRMS)))
            (cleanAMP.drop k) cutNoiseAmp) := by
  induction cutNoiseAmp generalizing k with
  | nil => simp [forEachM]
  | cons v t ih =>
    have hk : k < cleanAMP.length := by simp at h; omega
    have ih2 := ih (k + 1) (by simp at h; omega)
    rw [Option.map_eq_some'] at ih2
    obtain ⟨bs, hbs, hu⟩ := ih2
    have hA : (List.unzip bs).1 = t.map
        (fun v => Amp.mul (Amp.num v) (Amp.quot adjustedNoiseRMS noiseRMS)) := by rw [hu]
    have hB : (List.unzip bs).2 = List.zipWith
        (fun c v => Amp.add (Amp.num c)
          (Amp.mul (Amp.num v) (Amp.quot adjustedNoiseRMS noiseRMS)))
        (cleanAMP.drop (k + 1)) t := by
      rw [hu]
    have hb : mixBody adjustedNoiseRMS noiseRMS cleanAMP (k, v)
        = some (Amp.mul (Amp.num v) (Amp.quot adjustedNoiseRMS noiseRMS),
            Amp.add (Amp.num cleanAMP[k])
              (Amp.mul (Amp.num v) (Amp.quot adjustedNoiseRMS noiseRMS))) := by
      simp [mixBody, List.getElem?_eq_getElem hk]
    rw [List.drop_eq_getElem_cons hk]
    simp only [List.enumFrom_cons, forEachM, hb, hbs,
      Option.bind_eq_bind, Option.some_bind, Option.map_some', List.unzip_cons, hA, hB,
      List.map_cons, List.zipWith_cons_cons]

theorem mixLoop_eq {K : Type} [Field K] [DecidableEq K] (adjustedNoiseRMS noiseRMS : K)
    (cleanAMP cutNoiseAmp : List K) (h : cutNoiseAmp.length ≤ cleanAMP.length) :
    mixLoop adjustedNoiseRMS noiseRMS cleanAMP cutNoiseAmp
      = some (cutNoiseAmp.map
            (fun v => Amp.mul (Amp.num v) (Amp.quot adjustedNoiseRMS noiseRMS)),
          List.zipWith (fun c v => Amp.add (Amp.num c)
            (Amp.mul (Amp.num v) (Amp.quot adjustedNoiseRMS noiseRMS))) cleanAMP cutNoiseAmp) := by
  have := mixRows_eq adjustedNoiseRMS noiseRMS cleanAMP cutNoiseAmp 0 (by simpa using h)
  rw [List.drop_zero] at this
  rw [← this]
  unfold mixLoop
  simp only [List.enum, Option.bind_eq_bind]
  cases forEachM _ (List.enumFrom 0 cutNoiseAmp) <;> rfl

theorem mixLoop_finite {K : Type} [Field K] [DecidableEq K] (adjustedNoiseRMS noiseRMS : K)
    (cleanAMP cutNoiseAmp : List K) (h : cutNoiseAmp.length ≤ cleanAMP.length)
    (hn : noiseRMS ≠ 0) :
    mixLoop adjustedNoiseRMS noiseRMS cleanAMP cutNoiseAmp
      = some ((cutNoiseAmp.map (fun v => v * (adjustedNoiseRMS / noiseRMS))).map Amp.num,
          (List.zipWith (fun c a => c + a) cleanAMP
            (cutNoiseAmp.map (fun v => v * (adjustedNoiseRMS / noiseRMS)))).map Amp.num) := by
  rw [mixLoop_eq _ _ _ _ h]
  simp [Amp.quot, hn, Amp.mul, Amp.add, List.map_zipWith, List.zipWith_map_right]

theorem mixLoop_degenerate {K : Type} [Field K] [DecidableEq K] (adjustedNoiseRMS : K)
    (cleanAMP cutNoiseAmp : List K) (h : cutNoiseAmp.length ≤ cleanAMP.length) :
    mixLoop adjustedNoiseRMS 0 cleanAMP cutNoiseAmp
      = some (List.replicate cutNoiseAmp.length Amp.nonFinite,
          List.replicate cutNoiseAmp.length Amp.nonFinite) := by
  rw [mixLoop_eq _ _ _ _ h]
  congr 2
  · apply List.ext_getElem
    · simp
    · intro i h1 h2
      simp [Amp.quot, Amp.mul]
  · apply List.ext_getElem
    · simp [h]
    · intro i h1 h2
      simp [Amp.quot, Amp.mul, Amp.add]

/-! ## CalcRMS and CalcAdjustedRMS -/

theorem sumSquares_foldl (amp : List ℝ) (s : ℝ) :
    amp.foldl (fun sum v => sum + v * v) s = s + (amp.map (fun v => v * v)).sum := by
  induction amp generalizing s with
  | nil => simp
  | cons a t ih => simp [List.foldl_cons, ih, add_assoc]

theorem CalcRMS_eq (amp : List ℝ) :
    CalcRMS amp = Real.sqrt ((amp.map (fun v => v * v)).sum / (amp.length : ℝ)) := by
  simp [CalcRMS, sumSquares_foldl]

theorem CalcRMS_nonneg (amp : List ℝ) : 0 ≤ CalcRMS amp := by
  rw [CalcRMS_eq]; exact Real.sqrt_nonneg _

theorem sumSquares_scale (amp : List ℝ) (c : ℝ) :
    ((amp.map (fun v => v * c)).map (fun v => v * v)).sum
      = c * c * (amp.map (fun v => v * v)).sum := by
  induction amp with
  | nil => simp
  | cons a t ih => simp only [List.map_cons, List.sum_cons, ih]; ring

/-- Scaling every sample by `c` scales the RMS by `|c|`. -/
theorem CalcRMS_scale (amp : List ℝ) (c : ℝ) :
    CalcRMS (amp.map (fun v => v * c)) = |c| * CalcRMS amp := by
  rw [CalcRMS_eq, CalcRMS_eq, sumSquares_scale, List.length_map, mul_div_assoc,
    Real.sqrt_mul (mul_self_nonneg c), Real.sqrt_mul_self_eq_abs]

theorem CalcAdjustedRMS_nonneg (cleanRMS snr : ℝ) (h : 0 ≤ cleanRMS) :
    0 ≤ CalcAdjustedRMS cleanRMS snr := by
  unfold CalcAdjustedRMS
  exact div_nonneg h (le_of_lt (Real.rpow_pos_of_pos (by norm_num) _))

theorem CalcRMS_replicate_four (v : ℝ) (hv : 0 ≤ v) : CalcRMS [v, v, v, v] = v := by
  rw [CalcRMS_eq]
  have : ([v, v, v, v].map (fun v => v * v)).sum / (([v, v, v, v] : List ℝ).length : ℝ) = v * v := by
    simp; ring
  rw [this, Real.sqrt_mul_self hv]

/-- C8: for every non-empty clean signal, every noise signal the alignment step cuts whose
RMS is not zero, and every SNR value `snr`, the sweep point returns finite signals with
`adjustedNoiseAmp[i] = cutNoiseAmp[i] * (CalcAdjustedRMS(cleanRMS, snr) / noiseRMS)` and
`mixedAmp[i] = cleanAMP[i] + adjustedNoiseAmp[i]`, the RMS of the adjusted noise is exactly
`cleanRMS / 10^(snr/20)`, and `20*log10(cleanRMS / rms(adjustedNoise)) = snr` when
`cleanRMS > 0`; for `clean = [1,1,1,1]`, a noise signal of six samples `2` and `snr = 0`
the mixed signal is `[2,2,2,2]` whatever offset is drawn. All values are exact reals. -/
theorem C8_mix_hits_requested_snr (cleanAMP noiseAMP : List ℝ) (r : Nat) (snr : ℝ)
    (cleanAMP2 cutNoiseAmp : List ℝ) (hc : cleanAMP ≠ [])
    (hal : alignSignals cleanAMP noiseAMP r = some (cleanAMP2, cutNoiseAmp))
    (hn : CalcRMS cutNoiseAmp ≠ 0) :
    (∃ adjusted mixed : List ℝ,
      mixSweepPoint cleanAMP noiseAMP r snr = some (adjusted.map Amp.num, mixed.map Amp.num) ∧
      adjusted = cutNoiseAmp.map
        (fun v => v * (CalcAdjustedRMS (CalcRMS cleanAMP) snr / CalcRMS cutNoiseAmp)) ∧
      mixed = List.zipWith (fun c a => c + a) cleanAMP adjusted ∧
      CalcRMS adjusted = CalcRMS cleanAMP / (10 : ℝ) ^ (snr / 20) ∧
      (0 < CalcRMS cleanAMP → 20 * Real.logb 10 (CalcRMS cleanAMP / CalcRMS adjusted) = snr)) ∧
    (∀ r0 : Nat, mixSweepPoint [1, 1, 1, 1] [2, 2, 2, 2, 2, 2] r0 0
        = some (([1, 1, 1, 1] : List ℝ).map Amp.num, ([2, 2, 2, 2] : List ℝ).map Amp.num)) := by
  -- `hc`: in Go `CalcRMS(cleanAMP)` is a number only for a non-empty signal
  have _ := hc
  constructor
  · obtain ⟨rfl, hlen⟩ := alignSignals_some _ _ _ _ _ hal
    have hpos : 0 < CalcRMS cutNoiseAmp := lt_of_le_of_ne (CalcRMS_nonneg _) (Ne.symm hn)
    have hadj : 0 ≤ CalcAdjustedRMS (CalcRMS cleanAMP2) snr :=
      CalcAdjustedRMS_nonneg _ _ (CalcRMS_nonneg _)
    have hrms : CalcRMS (cutNoiseAmp.map
        (fun v => v * (CalcAdjustedRMS (CalcRMS cleanAMP2) snr / CalcRMS cutNoiseAmp)))
          = CalcRMS cleanAMP2 / (10 : ℝ) ^ (snr / 20) := by
      rw [CalcRMS_scale, abs_of_nonneg (div_nonneg hadj (le_of_lt hpos)),
        div_mul_cancel₀ _ hn]
      rfl
    refine ⟨_, _, ?_, rfl, rfl, hrms, ?_⟩
    · unfold mixSweepPoint
      simp only [hal, Option.bind_eq_bind, Option.some_bind]
      exact mixLoop_finite _ _ _ _ hlen hn
    · intro hcl
      have hp : (0 : ℝ) < (10 : ℝ) ^ (snr / 20) := Real.rpow_pos_of_pos (by norm_num) _
      rw [hrms, div_div_cancel₀ (ne_of_gt hcl), Real.logb_rpow (by norm_num) (by norm_num)]
      ring
  · intro r0
    have h1 : CalcRMS ([1, 1, 1, 1] : List ℝ) = 1 := CalcRMS_replicate_four 1 (by norm_num)
    have h2 : CalcRMS ([2, 2, 2, 2] : List ℝ) = 2 := CalcRMS_replicate_four 2 (by norm_num)
    have hcut : alignSignals ([1, 1, 1, 1] : List ℝ) [2, 2, 2, 2, 2, 2] r0
        = some ([1, 1, 1, 1], [2, 2, 2, 2]) := by
      rw [alignSignals_noiseLonger _ _ _ (by simp)]
      have h3 : r0 % 2 = 0 ∨ r0 % 2 = 1 := by omega
      rcases h3 with h3 | h3 <;> simp [h3]
    unfold mixSweepPoint
    simp only [hcut, Option.bind_eq_bind, Option.some_bind, h1, h2]
    rw [mixLoop_finite _ _ _ _ (by simp) (by norm_num)]
    simp [CalcAdjustedRMS]
    norm_num
theorem C8_mix_hits_requested_snr_witness :
    ([1, 1, 1, 1] : List ℝ) ≠ [] ∧
    alignSignals ([1, 1, 1, 1] : List ℝ) [2, 2, 2, 2, 2, 2] 0 = some ([1, 1, 1, 1], [2, 2, 2, 2]) ∧
    CalcRMS [2, 2, 2, 2] ≠ 0 ∧
    ((∃ adjusted mixed : List ℝ,
      mixSweepPoint [1, 1, 1, 1] [2, 2, 2, 2, 2, 2] 0 0
        = some (adjusted.map Amp.num, mixed.map Amp.num) ∧
      adjusted = ([2, 2, 2, 2] : List ℝ).map
        (fun v => v * (CalcAdjustedRMS (CalcRMS [1, 1, 1, 1]) 0 / CalcRMS [2, 2, 2, 2])) ∧
      mixed = List.zipWith (fun c a => c + a) [1, 1, 1, 1] adjusted ∧
      CalcRMS adjusted = CalcRMS [1, 1, 1, 1] / (10 : ℝ) ^ ((0 : ℝ) / 20) ∧
      (0 < CalcRMS [1, 1, 1, 1] →
        20 * Real.logb 10 (CalcRMS [1, 1, 1, 1] / CalcRMS adjusted) = 0)) ∧
    (∀ r0 : Nat, mixSweepPoint [1, 1, 1, 1] [2, 2, 2, 2, 2, 2] r0 0
        = some (([1, 1, 1, 1] : List ℝ).map Amp.num, ([2, 2, 2, 2] : List ℝ).map Amp.num))) := by
  have hal : alignSignals ([1, 1, 1, 1] : List ℝ) [2, 2, 2, 2, 2, 2] 0
      = some ([1, 1, 1, 1], [2, 2, 2, 2]) := by
    rw [alignSignals_noiseLonger _ _ _ (by simp)]; simp
  have hn : CalcRMS [2, 2, 2, 2] ≠ 0 := by
    rw [CalcRMS_replicate_four 2 (by norm_num)]; norm_num
  exact ⟨by simp, hal, hn,
    C8_mix_hits_requested_snr [1, 1, 1, 1] [2, 2, 2, 2, 2, 2] 0 0 [1, 1, 1, 1] [2, 2, 2, 2]
      (by simp) hal hn⟩

/-- C9, the claim as stated fails: for `clean = [1,1]` and `noise = [0,0]` the noise RMS is 0
and the sweep point raises no error; it returns a mixed signal, of two non-finite samples. -/
theorem C9_silent_noise_counterexample :
    CalcRMS [0, 0] = 0 ∧
      mixSweepPoint [1, 1] [0, 0] 0 0
        = some ([Amp.nonFinite, Amp.nonFinite], [Amp.nonFinite, Amp.nonFinite]) ∧
      mixSweepPoint [1, 1] [0, 0] 0 0 ≠ none := by
  have h0 : CalcRMS [0, 0] = 0 := by simp [CalcRMS_eq]
  have h1 : mixSweepPoint [1, 1] [0, 0] 0 0
      = some ([Amp.nonFinite, Amp.nonFinite], [Amp.nonFinite, Amp.nonFinite]) := by
    unfold mixSweepPoint
    rw [alignSignals_equal _ _ _ (by simp)]
    simp only [Option.bind_eq_bind, Option.some_bind, h0]
    rw [mixLoop_degenerate _ _ _ (by simp)]
    simp
  exact ⟨h0, h1, by rw [h1]; simp⟩

/-- C9, amended: when the aligned noise signal has RMS equal to 0 (for example
`clean = [1,1]`, `noise = [0,0]`), the mixing step has no degenerate-signal check: it raises
no error and returns an adjusted-noise and a mixed signal with one sample per noise sample,
every one of them non-finite (`NaN` or `±Inf`). -/
theorem C9_silent_noise_no_error (cleanAMP noiseAMP : List ℝ) (r : Nat) (snr : ℝ)
    (cleanAMP2 cutNoiseAmp : List ℝ)
    (hal : alignSignals cleanAMP noiseAMP r = some (cleanAMP2, cutNoiseAmp))
    (h0 : CalcRMS cutNoiseAmp = 0) :
    mixSweepPoint cleanAMP noiseAMP r snr
      = some (List.replicate cutNoiseAmp.length Amp.nonFinite,
          List.replicate cutNoiseAmp.length Amp.nonFinite) := by
  obtain ⟨rfl, hlen⟩ := alignSignals_some _ _ _ _ _ hal
  unfold mixSweepPoint
  simp only [hal, Option.bind_eq_bind, Option.some_bind, h0]
  exact mixLoop_degenerate _ _ _ hlen

theorem C9_silent_noise_no_error_witness :
    alignSignals ([1, 1] : List ℝ) [0, 0] 0 = some ([1, 1], [0, 0]) ∧
    CalcRMS [0, 0] = 0 ∧
    mixSweepPoint [1, 1] [0, 0] 0 0
      = some (List.replicate ([0, 0] : List ℝ).length Amp.nonFinite,
          List.replicate ([0, 0] : List ℝ).length Amp.nonFinite) := by
  have hal : alignSignals ([1, 1] : List ℝ) [0, 0] 0 = some ([1, 1], [0, 0]) :=
    alignSignals_equal _ _ _ (by simp)
  have h0 : CalcRMS [0, 0] = 0 := by simp [CalcRMS_eq]
  exact ⟨hal, h0, C9_silent_noise_no_error [1, 1] [0, 0] 0 0 [1, 1] [0, 0] hal h0⟩

/-! ## LinSpace -/

theorem fill_eq {K : Type} [Zero K] (f : Nat → K) (n k : Nat) (hk : k ≤ n) :
    (List.range k).foldlM (fun res i => setAt res i (f i)) (List.replicate n (0 : K))
      = some ((List.range k).map f ++ List.replicate (n - k) 0) := by
  induction k with
  | zero => simp
  | succ k ih =>
    rw [List.range_succ, List.foldlM_append, ih (by omega)]
    have hlen : k < ((List.range k).map f ++ List.replicate (n - k) (0 : K)).length := by
      simp; omega
    simp only [Option.bind_eq_bind, Option.some_bind, List.foldlM_cons, List.foldlM_nil, setAt,
      hlen, if_true, List.map_append, List.map_cons, List.map_nil, Option.bind_some]
    congr 1
    have e : n - k = (n - (k + 1)) + 1 := by omega
    rw [e, List.replicate_succ, List.set_append_right _ _ (by simp)]
    simp

/-- The call `LinSpace(start, end, n)` with `n ≥ 0` and `n ≠ 1` returns the `n` values
`start + delta * i`. -/
theorem LinSpace_eq {K : Type} [Field K] (start end_ : K) (n : Nat) (hn : n ≠ 1) :
    LinSpace start end_ (n : Int)
      = some ((List.range n).map
          (fun (i : Nat) => start + (end_ - start) / ((n : K) - 1) * (i : K))) := by
  have h1 : ¬ ((n : Int) = 1) := by omega
  unfold LinSpace
  simp only [makeSlice, Int.natCast_nonneg, if_true, Int.toNat_ofNat, Option.bind_eq_bind,
    Option.some_bind, h1, if_false, Int.cast_natCast]
  rw [fill_eq _ n n le_rfl]
  simp

theorem LinSpace_one {K : Type} [Field K] (start end_ : K) :
    LinSpace start end_ 1 = some [end_] := by
  simp [LinSpace, makeSlice, setAt]

theorem LinSpace_neg {K : Type} [Field K] (start end_ : K) (n : Int) (hn : n < 0) :
    LinSpace start end_ n = none := by
  have h : ¬ (0 ≤ n) := by omega
  simp [LinSpace, makeSlice, h]
/-- C11: for every `start` and `end`, `LinSpace(start, end, 1)` returns exactly the
one-element sequence `[end]`. -/
theorem C11_LinSpace_single {K : Type} [Field K] (start end_ : K) :
    LinSpace start end_ 1 = some [end_] :=
  LinSpace_one start end_

/-- C12: for every `start`, `end` and `n > 1`, `LinSpace(start, end, n)` has length exactly
`n`, its element `i` equals `start + ((end - start)/(n - 1)) * i` for every `i` in `[0, n)`,
its first element is `start` and its last element is `end` (in exact arithmetic); in
particular `LinSpace(0, 10, 11)[k] = k` for `k` in `0..10`. -/
theorem C12_LinSpace_values {K : Type} [LinearOrderedField K] (start end_ : K) (n : Nat)
    (hn : 1 < n) :
    (∃ res, LinSpace start end_ (n : Int) = some res ∧ res.length = n ∧
      (∀ i, i < n → res[i]? = some (start + ((end_ - start) / ((n : K) - 1)) * (i : K))) ∧
      res[0]? = some start ∧ res[n - 1]? = some end_) ∧
    (∃ res, LinSpace (0 : ℚ) 10 11 = some res ∧
      ∀ k : Nat, k ≤ 10 → res[k]? = some (k : ℚ)) := by
  constructor
  · have hval : ∀ i, i < n →
        ((List.range n).map
          (fun (i : Nat) => start + (end_ - start) / ((n : K) - 1) * (i : K)))[i]?
          = some (start + ((end_ - start) / ((n : K) - 1)) * (i : K)) := by
      intro i hi
      simp [List.getElem?_map, List.getElem?_range hi]
    refine ⟨_, LinSpace_eq start end_ n (by omega), by simp, hval, ?_, ?_⟩
    · rw [hval 0 (by omega)]; simp
    · rw [hval (n - 1) (by omega)]
      have h1 : ((n - 1 : Nat) : K) = (n : K) - 1 := by
        rw [Nat.cast_sub (le_of_lt hn)]; simp
      have h2 : (n : K) - 1 ≠ 0 := by
        have : (1 : K) < (n : K) := by exact_mod_cast hn
        exact ne_of_gt (sub_pos.mpr this)
      rw [h1, div_mul_cancel₀ _ h2]
      simp
  · have e : LinSpace (0 : ℚ) 10 11 = some ((List.range 11).map
        (fun (i : Nat) => (0 : ℚ) + (10 - 0) / (((11 : Nat) : ℚ) - 1) * (i : ℚ))) :=
      LinSpace_eq (0 : ℚ) 10 11 (by norm_num)
    refine ⟨_, e, ?_⟩
    intro k hk
    have hk2 : k < 11 := by omega
    rw [List.getElem?_map, List.getElem?_range hk2, Option.map_some']
    congr 1
    push_cast
    ring

theorem C12_LinSpace_values_witness :
    (1 : Nat) < 3 ∧
    ((∃ res, LinSpace (2 : ℚ) 6 ((3 : Nat) : Int) = some res ∧ res.length = 3 ∧
      (∀ i : Nat, i < 3 →
        res[i]? = some ((2 : ℚ) + ((6 - 2) / (((3 : Nat) : ℚ) - 1)) * (i : ℚ))) ∧
      res[0]? = some 2 ∧ res[3 - 1]? = some 6) ∧
    (∃ res, LinSpace (0 : ℚ) 10 11 = some res ∧
      ∀ k : Nat, k ≤ 10 → res[k]? = some (k : ℚ))) :=
  ⟨by decide, C12_LinSpace_values (2 : ℚ) 6 3 (by decide)⟩

/-- C13, the claim as stated fails: `LinSpace(0, 10, 0)` is not rejected, it returns the
empty sequence. -/
theorem C13_zero_count_counterexample :
    LinSpace (0 : ℚ) 10 0 = some [] ∧ LinSpace (0 : ℚ) 10 0 ≠ none := by
  have h : LinSpace (0 : ℚ) 10 0 = some [] := by
    simp [LinSpace, makeSlice]
  exact ⟨h, by rw [h]; simp⟩

/-- C13, amended: for every `start` and `end`, `LinSpace(start, end, n)` with `n < 0` panics
on the allocation of `n` elements and returns no sequence, and with `n = 0` it is not
rejected: it returns the empty sequence. -/
theorem C13_LinSpace_nonpositive {K : Type} [Field K] (start end_ : K) (n : Int)
    (hn : n ≤ 0) :
    LinSpace start end_ n = if n = 0 then some [] else none := by
  by_cases h : n = 0
  · subst h
    simp [LinSpace, makeSlice]
  · rw [if_neg h]
    exact LinSpace_neg start end_ n (by omega)

theorem C13_LinSpace_nonpositive_witness :
    ((-3 : Int) ≤ 0) ∧
    LinSpace (0 : ℚ) 10 (-3) = if (-3 : Int) = 0 then some [] else none :=
  ⟨by decide, C13_LinSpace_nonpositive (0 : ℚ) 10 (-3) (by decide)⟩

/-! ## CalcRMS of a constant signal, CalcAdjustedRMS, the round trip through float64 -/

/-- C14: for every real value `v` and every length `n ≥ 1`, `CalcRMS` of the constant signal
of `n` copies of `v` equals `|v|` (the square root of the mean of the squares, over the
reals). -/
theorem C14_CalcRMS_constant (v : ℝ) (n : Nat) (hn : 1 ≤ n) :
    CalcRMS (List.replicate n v) = |v| := by
  have hn0 : (n : ℝ) ≠ 0 := by
    have : 0 < n := hn
    exact_mod_cast this.ne'
  rw [CalcRMS_eq, List.map_replicate, List.sum_replicate, List.length_replicate, nsmul_eq_mul,
    mul_div_cancel_left₀ _ hn0, Real.sqrt_mul_self_eq_abs]

theorem C14_CalcRMS_constant_witness :
    (1 : Nat) ≤ 3 ∧ CalcRMS (List.replicate 3 (-2 : ℝ)) = |(-2 : ℝ)| :=
  ⟨by decide, C14_CalcRMS_constant (-2) 3 (by decide)⟩

/-- C15, the claim as stated fails: for `cleanRMS = 0` the adjusted RMS is `0` at every SNR,
so it is not smaller at the SNR 20 than at the SNR 0. -/
theorem C15_zero_rms_counterexample :
    (0 : ℝ) < 20 ∧ CalcAdjustedRMS 0 20 = 0 ∧ CalcAdjustedRMS 0 0 = 0 ∧
      ¬ (CalcAdjustedRMS 0 20 < CalcAdjustedRMS 0 0) := by
  have h1 : CalcAdjustedRMS 0 20 = 0 := by simp [CalcAdjustedRMS]
  have h2 : CalcAdjustedRMS 0 0 = 0 := by simp [CalcAdjustedRMS]
  refine ⟨by norm_num, h1, h2, ?_⟩
  rw [h1, h2]
  exact lt_irrefl 0

/-- C15, amended: for every `cleanRMS` and every `snr`, `CalcAdjustedRMS(cleanRMS, snr)`
equals `cleanRMS / 10^(snr/20)`; and for every `cleanRMS > 0` a higher SNR gives a smaller
noise RMS: for `snr1 < snr2`,
`CalcAdjustedRMS(cleanRMS, snr2) < CalcAdjustedRMS(cleanRMS, snr1)`. -/
theorem C15_CalcAdjustedRMS_decreasing :
    (∀ cleanRMS snr : ℝ, CalcAdjustedRMS cleanRMS snr = cleanRMS / (10 : ℝ) ^ (snr / 20)) ∧
    (∀ cleanRMS snr1 snr2 : ℝ, 0 < cleanRMS → snr1 < snr2 →
      CalcAdjustedRMS cleanRMS snr2 < CalcAdjustedRMS cleanRMS snr1) := by
  refine ⟨fun _ _ => rfl, ?_⟩
  intro cleanRMS snr1 snr2 hc hs
  unfold CalcAdjustedRMS
  have hp : (0 : ℝ) < (10 : ℝ) ^ (snr1 / 20) := Real.rpow_pos_of_pos (by norm_num) _
  have hlt : (10 : ℝ) ^ (snr1 / 20) < (10 : ℝ) ^ (snr2 / 20) :=
    (Real.rpow_lt_rpow_left_iff (by norm_num)).mpr (by linarith)
  exact div_lt_div_of_pos_left hc hp hlt

theorem C15_CalcAdjustedRMS_decreasing_witness :
    CalcAdjustedRMS 0 20 = 0 / (10 : ℝ) ^ ((20 : ℝ) / 20) ∧
    (0 : ℝ) < 1 ∧ (0 : ℝ) < 20 ∧ CalcAdjustedRMS 1 20 < CalcAdjustedRMS 1 0 :=
  ⟨C15_CalcAdjustedRMS_decreasing.1 0 20, by norm_num, by norm_num,
    C15_CalcAdjustedRMS_decreasing.2 1 0 20 (by norm_num) (by norm_num)⟩

theorem truncToInt_intCast {K : Type} [LinearOrderedField K] [FloorRing K] (z : Int) :
    truncToInt ((z : Int) : K) = z := by
  unfold truncToInt
  split <;> simp

theorem float64OfInt_small (s : Int) (h : |s| ≤ 2 ^ 53) : float64OfInt s = s := by
  have h2 : s.natAbs ≤ 2 ^ 53 := by
    have : ((s.natAbs : Nat) : Int) ≤ 2 ^ 53 := by rw [Int.natCast_natAbs]; exact h
    exact_mod_cast this
  unfold float64OfInt
  simp only [h2, if_true]

theorem log2_two_pow_53_succ : Nat.log2 9007199254740993 = 53 := by
  rw [Nat.log2_eq_log_two]
  exact (Nat.log_eq_iff (by norm_num)).mpr ⟨by norm_num, by norm_num⟩

/-- C16, the claim as stated fails: the integer `2^53 + 1 = 9007199254740993` has no
`float64` of its own, `float64` rounds it to `2^53`, and the round trip returns
`9007199254740992`. -/
theorem C16_roundtrip_counterexample :
    Float64sToInts (IntsToFloat64s [9007199254740993] : List ℚ) = [9007199254740992] ∧
      Float64sToInts (IntsToFloat64s [9007199254740993] : List ℚ) ≠ [9007199254740993] := by
  have h0 : float64OfInt 9007199254740993 = 9007199254740992 := by
    have e : Int.natAbs 9007199254740993 = 9007199254740993 := rfl
    have e2 : Int.sign 9007199254740993 = 1 := rfl
    simp only [float64OfInt, e, log2_two_pow_53_succ, e2]
    norm_num
  have h : Float64sToInts (IntsToFloat64s [9007199254740993] : List ℚ)
      = [9007199254740992] := by
    simp only [IntsToFloat64s, Float64sToInts, List.map_cons, List.map_nil, h0,
      truncToInt_intCast]
  exact ⟨h, by rw [h]; decide⟩

/-- C16, amended: for every sequence of integer samples `is` whose absolute values are at
most `2^53` (every PCM sample of up to 32 bits is one), converting to floating point and
back is the identity: `Float64sToInts(IntsToFloat64s(is)) = is`, with the same length and
every element preserved exactly. -/
theorem C16_roundtrip_identity {K : Type} [LinearOrderedField K] [FloorRing K]
    (is : List Int) (h : ∀ s ∈ is, |s| ≤ 2 ^ 53) :
    Float64sToInts (IntsToFloat64s is : List K) = is ∧
      (Float64sToInts (IntsToFloat64s is : List K)).length = is.length := by
  have e : Float64sToInts (IntsToFloat64s is : List K) = is := by
    unfold Float64sToInts IntsToFloat64s
    rw [List.map_map]
    conv_rhs => rw [← List.map_id is]
    apply List.map_congr_left
    intro s hs
    simp [float64OfInt_small s (h s hs), truncToInt_intCast]
  exact ⟨e, by rw [e]⟩

theorem C16_roundtrip_identity_witness :
    (∀ s ∈ ([1, -32768, 32767] : List Int), |s| ≤ 2 ^ 53) ∧
    (Float64sToInts (IntsToFloat64s [1, -32768, 32767] : List ℚ) = [1, -32768, 32767] ∧
      (Float64sToInts (IntsToFloat64s [1, -32768, 32767] : List ℚ)).length
        = ([1, -32768, 32767] : List Int).length) := by
  have h : ∀ s ∈ ([1, -32768, 32767] : List Int), |s| ≤ 2 ^ 53 := by
    intro s hs
    simp only [List.mem_cons, List.mem_singleton, List.not_mem_nil, or_false] at hs
    rcases hs with rfl | rfl | rfl <;> norm_num
  exact ⟨h, C16_roundtrip_identity [1, -32768, 32767] h⟩

/-! ## The alignment of a longer noise signal, the leading samples of Convolve -/

/-- C17: when `len(noise) > len(clean)` (`len(clean) ≥ 1` or not), every offset in
`[0, len(noise) - len(clean))` is a value `rand.Intn` can return, the slice
`noise[offset : offset+len(clean)]` is within bounds, the aligned noise has length exactly
`len(clean)` and is the contiguous run of `noise` starting at `offset`, and the clean signal
is left unmodified. -/
theorem C17_noise_longer_aligned {K : Type} (cleanAMP noiseAMP : List K) (offset : Nat)
    (hlen : cleanAMP.length < noiseAMP.length)
    (ho : offset < noiseAMP.length - cleanAMP.length) :
    randIntn ((noiseAMP.length : Int) - (cleanAMP.length : Int)) offset = some (offset : Int) ∧
    (∃ cutNoiseAmp,
      sliceRange noiseAMP (offset : Int) ((offset : Int) + (cleanAMP.length : Int))
        = some cutNoiseAmp ∧
      alignSignals cleanAMP noiseAMP offset = some (cleanAMP, cutNoiseAmp) ∧
      cutNoiseAmp.length = cleanAMP.length ∧
      ∀ i, i < cleanAMP.length → cutNoiseAmp[i]? = noiseAMP[offset + i]?) := by
  have hmod : offset % (noiseAMP.length - cleanAMP.length) = offset := Nat.mod_eq_of_lt ho
  refine ⟨?_, (noiseAMP.drop offset).take cleanAMP.length, ?_, ?_, ?_, ?_⟩
  · have hn : ¬ ((noiseAMP.length : Int) - (cleanAMP.length : Int) ≤ 0) := by omega
    have e : (offset : Int) % ((noiseAMP.length : Int) - (cleanAMP.length : Int))
        = (offset : Int) := by
      apply Int.emod_eq_of_lt <;> omega
    simp only [randIntn, hn, if_false, e]
  · have h3 : (0 : Int) ≤ (offset : Int) ∧
        (offset : Int) ≤ (offset : Int) + (cleanAMP.length : Int) ∧
        (offset : Int) + (cleanAMP.length : Int) ≤ (noiseAMP.length : Int) := by omega
    simp only [sliceRange, h3, and_self, if_true]
    simp
  · rw [alignSignals_noiseLonger _ _ _ hlen, hmod]
  · simp; omega
  · intro i hi
    rw [List.getElem?_take_of_lt hi, List.getElem?_drop]

theorem C17_noise_longer_aligned_witness :
    ([1, 1] : List ℚ).length < ([5, 6, 7, 8, 9] : List ℚ).length ∧
    2 < ([5, 6, 7, 8, 9] : List ℚ).length - ([1, 1] : List ℚ).length ∧
    (randIntn ((([5, 6, 7, 8, 9] : List ℚ).length : Int) - (([1, 1] : List ℚ).length : Int)) 2
        = some ((2 : Nat) : Int) ∧
    (∃ cutNoiseAmp,
      sliceRange ([5, 6, 7, 8, 9] : List ℚ) ((2 : Nat) : Int)
          (((2 : Nat) : Int) + (([1, 1] : List ℚ).length : Int)) = some cutNoiseAmp ∧
      alignSignals ([1, 1] : List ℚ) [5, 6, 7, 8, 9] 2 = some ([1, 1], cutNoiseAmp) ∧
      cutNoiseAmp.length = ([1, 1] : List ℚ).length ∧
      ∀ i, i < ([1, 1] : List ℚ).length →
        cutNoiseAmp[i]? = ([5, 6, 7, 8, 9] : List ℚ)[2 + i]?)) :=
  ⟨by simp, by simp, C17_noise_longer_aligned [1, 1] [5, 6, 7, 8, 9] 2 (by simp) (by simp)⟩

/-- C19, the claim as stated fails: for `xs = [1,2]` and the empty `ys`, `Convolve` returns
the two zeros `[0,0]`, while the full linear convolution has `2 + 0 - 1 = 1` sample, so its
first `len(xs)` samples are `[0]`. -/
theorem C19_empty_ys_counterexample :
    Convolve ([1, 2] : List ℚ) [] = some [0, 0] ∧
      (linearConv ([1, 2] : List ℚ) []).take ([1, 2] : List ℚ).length = [0] ∧
      Convolve ([1, 2] : List ℚ) []
        ≠ some ((linearConv ([1, 2] : List ℚ) []).take ([1, 2] : List ℚ).length) := by
  have h1 : Convolve ([1, 2] : List ℚ) [] = some [0, 0] := by
    simp [Convolve, convLoop, convNode, makeSlice, List.range_succ, forEachM]
  have h2 : (linearConv ([1, 2] : List ℚ) []).take ([1, 2] : List ℚ).length = [0] := by
    simp [linearConv, convSum, List.range_succ]
  refine ⟨h1, h2, ?_⟩
  rw [h1, h2]
  simp

/-- C19, amended: for every pair of sequences with `len(xs) ≥ len(ys)`, `Convolve(xs, ys)`
has length `len(xs)` and its element `i` equals the sum over `j` from 0 to
`min(i, len(ys)-1)` of `xs[i-j]*ys[j]`, which is the discrete convolution sum at `i`; when
`ys` is not empty, the output is exactly the first `len(xs)` samples of the full linear
convolution of `xs` and `ys`. -/
theorem C19_Convolve_leading_samples {K : Type} [Semiring K] (xs ys : List K)
    (hlen : ys.length ≤ xs.length) :
    ∃ rs, Convolve xs ys = some rs ∧ rs.length = xs.length ∧
      (∀ i, i < xs.length →
        rs[i]? = some (∑ j in range (min (i + 1) ys.length), xs.getD (i - j) 0 * ys.getD j 0) ∧
        rs[i]? = some (convSum xs ys i)) ∧
      (ys ≠ [] → rs = (linearConv xs ys).take xs.length) := by
  have hget : ∀ i, i < xs.length →
      ((List.range (max xs.length ys.length)).map (codeSum xs ys))[i]?
        = some (convSum xs ys i) := by
    intro i hi
    have hi3 : i < max xs.length ys.length := by rw [max_eq_left hlen]; exact hi
    simp [List.getElem?_map, List.getElem?_range hi3, codeSum_eq_convSum xs ys i hlen hi]
  refine ⟨_, Convolve_eq xs ys, by simp [max_eq_left hlen], ?_, ?_⟩
  · intro i hi
    refine ⟨?_, hget i hi⟩
    rw [hget i hi]
    congr 1
    unfold convSum
    have hsub : range (min (i + 1) ys.length) ⊆ range ys.length :=
      Finset.range_subset.mpr (min_le_right _ _)
    rw [← Finset.sum_subset hsub]
    · apply Finset.sum_congr rfl
      intro j hj
      have hj2 : j < min (i + 1) ys.length := Finset.mem_range.mp hj
      have h1 : j ≤ i ∧ i - j < xs.length := by
        have := lt_of_lt_of_le hj2 (min_le_left _ _)
        omega
      rw [if_pos h1]
    · intro j hj hnot
      have hj2 : j < ys.length := Finset.mem_range.mp hj
      have h1 : ¬ (j ≤ i ∧ i - j < xs.length) := by
        rintro ⟨h2, _⟩
        apply hnot
        rw [Finset.mem_range]
        exact lt_min (by omega) hj2
      rw [if_neg h1]
  · intro hy
    have hy2 : 0 < ys.length := List.length_pos.mpr hy
    apply List.ext_getElem?
    intro i
    by_cases hi : i < xs.length
    · rw [hget i hi, List.getElem?_take_of_lt hi]
      have hi4 : i < xs.length + ys.length - 1 := by omega
      simp [linearConv, List.getElem?_map, List.getElem?_range hi4]
    · have h1 : ((List.range (max xs.length ys.length)).map (codeSum xs ys))[i]? = none := by
        apply List.getElem?_eq_none
        simp [max_eq_left hlen]; omega
      have h2 : ((linearConv xs ys).take xs.length)[i]? = none := by
        apply List.getElem?_eq_none
        simp; omega
      rw [h1, h2]

theorem C19_Convolve_leading_samples_witness :
    ([1, 1] : List ℚ).length ≤ ([1, 2, 3] : List ℚ).length ∧
    ∃ rs, Convolve ([1, 2, 3] : List ℚ) [1, 1] = some rs ∧
      rs.length = ([1, 2, 3] : List ℚ).length ∧
      (∀ i, i < ([1, 2, 3] : List ℚ).length →
        rs[i]? = some (∑ j in range (min (i + 1) ([1, 1] : List ℚ).length),
          ([1, 2, 3] : List ℚ).getD (i - j) 0 * ([1, 1] : List ℚ).getD j 0) ∧
        rs[i]? = some (convSum ([1, 2, 3] : List ℚ) [1, 1] i)) ∧
      (([1, 1] : List ℚ) ≠ [] →
        rs = (linearConv ([1, 2, 3] : List ℚ) [1, 1]).take ([1, 2, 3] : List ℚ).length) :=
  ⟨by simp, C19_Convolve_leading_samples [1, 2, 3] [1, 1] (by simp)⟩

/-! ## MSE -/

theorem mseLoop_eq {K : Type} [Field K] [DecidableEq K] (a b : List K)
    (h : a.length = b.length) :
    mseLoop a b
      = some (Amp.quot (∑ i in range a.length,
          (a.getD i 0 - b.getD i 0) * (a.getD i 0 - b.getD i 0)) (a.length : K), none) := by
  unfold mseLoop
  rw [foldlM_eq_some _
    (fun sum i => sum + (a.getD i 0 - b.getD i 0) * (a.getD i 0 - b.getD i 0))]
  · rw [foldl_range_eq_sum]
    rfl
  · intro s i hi
    have hi1 : i < a.length := List.mem_range.mp hi
    have hi2 : i < b.length := by omega
    simp [List.getD_eq_getElem?_getD, List.getElem?_eq_getElem hi1,
      List.getElem?_eq_getElem hi2]

theorem getD_replicate_zero {K : Type} [Zero K] (n i : Nat) :
    (List.replicate n (0 : K)).getD i 0 = 0 := by
  rw [List.getD_eq_getElem?_getD, List.getElem?_replicate]
  split <;> rfl

theorem MSE_nil {K : Type} [Field K] [DecidableEq K] (a : List K) :
    MSE a none
      = some (Amp.quot (∑ i in range a.length, a.getD i 0 * a.getD i 0) (a.length : K),
          none) := by
  unfold MSE
  simp only [makeSlice, Int.natCast_nonneg, if_true, Int.toNat_ofNat, Option.bind_eq_bind,
    Option.some_bind]
  rw [mseLoop_eq _ _ (by simp)]
  simp only [getD_replicate_zero, sub_zero]

theorem sum_getD_eq_list_sum (a : List ℝ) :
    ∑ i in range a.length, a.getD i 0 * a.getD i 0 = (a.map (fun v => v * v)).sum := by
  induction a using List.reverseRecOn with
  | nil => simp
  | append_singleton t x ih =>
    rw [List.length_append, List.length_singleton, Finset.sum_range_succ, List.map_append,
      List.sum_append, ← ih]
    congr 1
    · apply Finset.sum_congr rfl
      intro i hi
      have hi2 : i < t.length := Finset.mem_range.mp hi
      simp [List.getD_eq_getElem?_getD, List.getElem?_append_left hi2]
    · simp [List.getD_eq_getElem?_getD]

/-- C20: `MSE(a, b)` returns an error exactly when `b` is non-nil and `len(a) != len(b)`
(and then the value 0); in every other case it returns no error and the value
`sum / len(a)` of the squares `(a[i] - b[i])^2`, a nil `b` read as the all-zero sequence,
which is `(1/len(a)) * sum` for a non-empty `a`; so for a non-empty `a`,
`MSE(a, nil) = CalcRMS(a)^2` and `MSE(a, a) = 0`. -/
theorem C20_MSE (a : List ℝ) (b : Option (List ℝ)) :
    ((∃ v msg, MSE a b = some (v, some msg)) ↔ ∃ bl, b = some bl ∧ a.length ≠ bl.length) ∧
    (∀ bl, b = some bl → a.length ≠ bl.length →
      MSE a b = some (Amp.num 0, some "length of a and b must agree")) ∧
    ((¬ ∃ bl, b = some bl ∧ a.length ≠ bl.length) →
      MSE a b = some (Amp.quot
          (∑ i in range a.length,
            (a.getD i 0 - (b.getD (List.replicate a.length 0)).getD i 0) *
              (a.getD i 0 - (b.getD (List.replicate a.length 0)).getD i 0))
          (a.length : ℝ), none) ∧
      (a ≠ [] → MSE a b = some (Amp.num ((1 / (a.length : ℝ)) *
          ∑ i in range a.length,
            (a.getD i 0 - (b.getD (List.replicate a.length 0)).getD i 0) ^ 2), none))) ∧
    (a ≠ [] → MSE a none = some (Amp.num (CalcRMS a ^ 2), none) ∧
      MSE a (some a) = some (Amp.num 0, none)) := by
  have hval : (¬ ∃ bl, b = some bl ∧ a.length ≠ bl.length) →
      MSE a b = some (Amp.quot
          (∑ i in range a.length,
            (a.getD i 0 - (b.getD (List.replicate a.length 0)).getD i 0) *
              (a.getD i 0 - (b.getD (List.replicate a.length 0)).getD i 0))
          (a.length : ℝ), none) := by
    intro hno
    cases b with
    | none =>
      rw [MSE_nil]
      simp only [Option.getD_none, getD_replicate_zero, sub_zero]
    | some bl =>
      have hl : a.length = bl.length := by
        by_contra hne
        exact hno ⟨bl, rfl, hne⟩
      simp only [MSE, hl, ne_eq, not_true_eq_false, if_false, Option.getD_some]
      rw [mseLoop_eq a bl hl, hl]
  have hne0 : a ≠ [] → (a.length : ℝ) ≠ 0 := by
    intro ha
    have : 0 < a.length := List.length_pos.mpr ha
    exact_mod_cast this.ne'
  refine ⟨?_, ?_, ?_, ?_⟩
  · constructor
    · rintro ⟨v, msg, hm⟩
      by_contra hno
      rw [hval hno] at hm
      simp at hm
    · rintro ⟨bl, rfl, hne⟩
      exact ⟨Amp.num 0, "length of a and b must agree", by simp [MSE, hne]⟩
  · rintro bl rfl hne
    simp [MSE, hne]
  · intro hno
    refine ⟨hval hno, ?_⟩
    intro ha
    rw [hval hno]
    simp only [Amp.quot, hne0 ha, if_false]
    congr 3
    rw [one_div, inv_mul_eq_div]
    congr 1
    apply Finset.sum_congr rfl
    intro i _
    ring
  · intro ha
    constructor
    · rw [MSE_nil]
      simp only [Amp.quot, hne0 ha, if_false]
      congr 3
      rw [CalcRMS_eq, sum_getD_eq_list_sum, Real.sq_sqrt]
      apply div_nonneg
      · apply List.sum_nonneg
        intro x hx
        simp only [List.mem_map] at hx
        obtain ⟨v, _, rfl⟩ := hx
        exact mul_self_nonneg v
      · exact Nat.cast_nonneg _
    · simp only [MSE, ne_eq, not_true_eq_false, if_false]
      rw [mseLoop_eq a a rfl]
      simp [Amp.quot, hne0 ha]

/-! ## The integer suffixes of a sweep -/

theorem truncToInt_of_nonneg {K : Type} [LinearOrderedField K] [FloorRing K] (x : K)
    (h : 0 ≤ x) : truncToInt x = ⌊x⌋ := by
  simp [truncToInt, h]

theorem truncToInt_of_nonpos {K : Type} [LinearOrderedField K] [FloorRing K] (x : K)
    (h : x ≤ 0) : truncToInt x = ⌈x⌉ := by
  by_cases h0 : 0 ≤ x
  · have : x = 0 := le_antisymm h h0
    subst this
    simp [truncToInt]
  · simp [truncToInt, h0]

theorem truncToInt_abs_sub_lt {K : Type} [LinearOrderedField K] [FloorRing K] (x : K) :
    |((truncToInt x : Int) : K) - x| < 1 := by
  by_cases h0 : 0 ≤ x
  · rw [truncToInt_of_nonneg x h0, abs_lt]
    constructor
    · linarith [Int.lt_floor_add_one x]
    · linarith [Int.floor_le x]
  · rw [truncToInt_of_nonpos x (le_of_lt (not_le.mp h0)), abs_lt]
    constructor
    · linarith [Int.le_ceil x]
    · linarith [Int.ceil_lt_add_one x]

theorem truncToInt_ne_of_two_le {K : Type} [LinearOrderedField K] [FloorRing K] (x y : K)
    (h : 2 ≤ |x - y|) : truncToInt x ≠ truncToInt y := by
  intro he
  have h1 := truncToInt_abs_sub_lt x
  have h2 := truncToInt_abs_sub_lt y
  rw [he] at h1
  have h3 : |x - y| < 2 := by
    have e : x - y = (((truncToInt y : Int) : K) - y) - (((truncToInt y : Int) : K) - x) := by
      ring
    rw [e]
    calc |(((truncToInt y : Int) : K) - y) - (((truncToInt y : Int) : K) - x)|
        ≤ |((truncToInt y : Int) : K) - y| + |((truncToInt y : Int) : K) - x| := abs_sub _ _
      _ < 2 := by linarith
  linarith

theorem truncToInt_ne_of_one_le_nonneg {K : Type} [LinearOrderedField K] [FloorRing K]
    (x y : K) (hx : 0 ≤ x) (hy : 0 ≤ y) (h : 1 ≤ |x - y|) : truncToInt x ≠ truncToInt y := by
  rw [truncToInt_of_nonneg x hx, truncToInt_of_nonneg y hy]
  intro he
  have := Int.abs_sub_lt_one_of_floor_eq_floor he
  linarith

theorem truncToInt_ne_of_one_le_nonpos {K : Type} [LinearOrderedField K] [FloorRing K]
    (x y : K) (hx : x ≤ 0) (hy : y ≤ 0) (h : 1 ≤ |x - y|) : truncToInt x ≠ truncToInt y := by
  rw [truncToInt_of_nonpos x hx, truncToInt_of_nonpos y hy]
  intro he
  have he2 : ⌊-x⌋ = ⌊-y⌋ := by
    have h1 : ⌊-x⌋ = -⌈x⌉ := Int.floor_neg
    have h2 : ⌊-y⌋ = -⌈y⌉ := Int.floor_neg
    rw [h1, h2, he]
  have := Int.abs_sub_lt_one_of_floor_eq_floor he2
  have e : |(-x) - (-y)| = |x - y| := by
    rw [← abs_neg]; congr 1; ring
  rw [e] at this
  linarith
theorem sweep_point_sign {K : Type} [LinearOrderedField K] (start end_ : K) (n i : Nat)
    (hn : 2 ≤ n) (hi : i < n) :
    (0 ≤ start → 0 ≤ end_ → 0 ≤ start + (end_ - start) / ((n : K) - 1) * (i : K)) ∧
    (start ≤ 0 → end_ ≤ 0 → start + (end_ - start) / ((n : K) - 1) * (i : K) ≤ 0) := by
  have hn1 : (0 : K) < (n : K) - 1 := by
    have : (1 : K) < (n : K) := by exact_mod_cast (by omega : 1 < n)
    linarith
  have hi1 : (i : K) ≤ (n : K) - 1 := by
    have : (i : K) + 1 ≤ (n : K) := by exact_mod_cast (by omega : i + 1 ≤ n)
    linarith
  have hi0 : (0 : K) ≤ (i : K) := Nat.cast_nonneg i
  have ht0 : 0 ≤ (i : K) / ((n : K) - 1) := div_nonneg hi0 (le_of_lt hn1)
  have ht1 : (i : K) / ((n : K) - 1) ≤ 1 := (div_le_one hn1).mpr hi1
  have e : start + (end_ - start) / ((n : K) - 1) * (i : K)
      = start * (1 - (i : K) / ((n : K) - 1)) + end_ * ((i : K) / ((n : K) - 1)) := by
    field_simp
    ring
  rw [e]
  constructor
  · intro h1 h2
    exact add_nonneg (mul_nonneg h1 (by linarith)) (mul_nonneg h2 ht0)
  · intro h1 h2
    have a1 : start * (1 - (i : K) / ((n : K) - 1)) ≤ 0 :=
      mul_nonpos_of_nonpos_of_nonneg h1 (by linarith)
    have a2 : end_ * ((i : K) / ((n : K) - 1)) ≤ 0 := mul_nonpos_of_nonpos_of_nonneg h2 ht0
    linarith

theorem sweep_point_dist {K : Type} [LinearOrderedField K] (start end_ : K) (n i j : Nat)
    (hn : 2 ≤ n) (hij : i ≠ j) :
    |end_ - start| / ((n : K) - 1)
      ≤ |(start + (end_ - start) / ((n : K) - 1) * (i : K))
          - (start + (end_ - start) / ((n : K) - 1) * (j : K))| := by
  have hn1 : (0 : K) < (n : K) - 1 := by
    have : (1 : K) < (n : K) := by exact_mod_cast (by omega : 1 < n)
    linarith
  have e : (start + (end_ - start) / ((n : K) - 1) * (i : K))
      - (start + (end_ - start) / ((n : K) - 1) * (j : K))
      = (end_ - start) / ((n : K) - 1) * ((i : K) - (j : K)) := by ring
  have hd : (1 : K) ≤ |(i : K) - (j : K)| := by
    have h1 : (1 : Int) ≤ |(i : Int) - (j : Int)| := by
      rcases lt_or_gt_of_ne hij with h | h
      · rw [abs_of_neg (by omega)]; omega
      · rw [abs_of_pos (by omega)]; omega
    have h2 : ((1 : Int) : K) ≤ ((|(i : Int) - (j : Int)| : Int) : K) := by exact_mod_cast h1
    simpa using h2
  rw [e, abs_mul, abs_div, abs_of_pos hn1]
  have hnn : 0 ≤ |end_ - start| / ((n : K) - 1) := div_nonneg (abs_nonneg _) (le_of_lt hn1)
  calc |end_ - start| / ((n : K) - 1) = |end_ - start| / ((n : K) - 1) * 1 := by ring
    _ ≤ |end_ - start| / ((n : K) - 1) * |(i : K) - (j : K)| :=
        mul_le_mul_of_nonneg_left hd hnn

/-- C18, the claim as stated fails: the sweep `LinSpace(0, 1, 3) = [0, 1/2, 1]` has `n ≥ 2`
and `start != end`, and its integer suffixes are `0, 0, 1`: two sweep points share the
suffix 0. -/
theorem C18_suffix_collision_counterexample :
    ∃ snrList, LinSpace (0 : ℚ) 1 3 = some snrList ∧ Float64sToInts snrList = [0, 0, 1] ∧
      ¬ (Float64sToInts snrList).Nodup := by
  have e : LinSpace (0 : ℚ) 1 3 = some ((List.range 3).map
      (fun (i : Nat) => (0 : ℚ) + (1 - 0) / (((3 : Nat) : ℚ) - 1) * (i : ℚ))) :=
    LinSpace_eq (0 : ℚ) 1 3 (by norm_num)
  have h : Float64sToInts ((List.range 3).map
      (fun (i : Nat) => (0 : ℚ) + (1 - 0) / (((3 : Nat) : ℚ) - 1) * (i : ℚ))) = [0, 0, 1] := by
    simp only [Float64sToInts, List.range_succ, List.range_zero, List.nil_append,
      List.cons_append, List.map_cons, List.map_nil]
    norm_num [truncToInt]
  refine ⟨_, e, h, ?_⟩
  rw [h]
  decide

theorem truncToInt_abs_le {K : Type} [LinearOrderedField K] [FloorRing K] (x : K) :
    |((truncToInt x : Int) : K)| ≤ |x| := by
  by_cases h0 : 0 ≤ x
  · rw [truncToInt_of_nonneg x h0, abs_of_nonneg h0,
      abs_of_nonneg (by exact_mod_cast Int.floor_nonneg.mpr h0)]
    exact Int.floor_le x
  · have hx : x ≤ 0 := le_of_lt (not_le.mp h0)
    have hc : ((⌈x⌉ : Int) : K) ≤ 0 := by exact_mod_cast Int.ceil_le.mpr (by simpa using hx)
    rw [truncToInt_of_nonpos x hx, abs_of_nonpos hx, abs_of_nonpos hc]
    linarith [Int.le_ceil x]

theorem truncToInt_in_range {K : Type} [LinearOrderedField K] [FloorRing K] (x : K)
    (h : |x| < 2 ^ 63) : -2 ^ 63 < truncToInt x ∧ truncToInt x < 2 ^ 63 := by
  have h1 : |((truncToInt x : Int) : K)| < 2 ^ 63 := lt_of_le_of_lt (truncToInt_abs_le x) h
  have h2 : ((|truncToInt x| : Int) : K) < (((2 : Int) ^ 63 : Int) : K) := by
    rw [Int.cast_abs, Int.cast_pow, Int.cast_ofNat]
    exact h1
  have h3 : |truncToInt x| < (2 : Int) ^ 63 := Int.cast_lt.mp h2
  exact abs_lt.mp h3

theorem sweep_point_abs_lt {K : Type} [LinearOrderedField K] (start end_ B : K) (n i : Nat)
    (hn : 2 ≤ n) (hi : i < n) (hs : |start| < B) (he : |end_| < B) :
    |start + (end_ - start) / ((n : K) - 1) * (i : K)| < B := by
  have hn1 : (0 : K) < (n : K) - 1 := by
    have : (1 : K) < (n : K) := by exact_mod_cast (by omega : 1 < n)
    linarith
  have hi1 : (i : K) ≤ (n : K) - 1 := by
    have : (i : K) + 1 ≤ (n : K) := by exact_mod_cast (by omega : i + 1 ≤ n)
    linarith
  have hi0 : (0 : K) ≤ (i : K) := Nat.cast_nonneg i
  have ht0 : 0 ≤ (i : K) / ((n : K) - 1) := div_nonneg hi0 (le_of_lt hn1)
  have ht1 : (i : K) / ((n : K) - 1) ≤ 1 := (div_le_one hn1).mpr hi1
  have e : start + (end_ - start) / ((n : K) - 1) * (i : K)
      = start * (1 - (i : K) / ((n : K) - 1)) + end_ * ((i : K) / ((n : K) - 1)) := by
    field_simp
    ring
  rw [e]
  have hu : 0 ≤ 1 - (i : K) / ((n : K) - 1) := by linarith
  have a1 : |start * (1 - (i : K) / ((n : K) - 1))| ≤ max |start| |end_| * (1 - (i : K) / ((n : K) - 1)) := by
    rw [abs_mul, abs_of_nonneg hu]
    exact mul_le_mul_of_nonneg_right (le_max_left _ _) hu
  have a2 : |end_ * ((i : K) / ((n : K) - 1))| ≤ max |start| |end_| * ((i : K) / ((n : K) - 1)) := by
    rw [abs_mul, abs_of_nonneg ht0]
    exact mul_le_mul_of_nonneg_right (le_max_right _ _) ht0
  have hm : max |start| |end_| < B := max_lt hs he
  calc |start * (1 - (i : K) / ((n : K) - 1)) + end_ * ((i : K) / ((n : K) - 1))|
      ≤ |start * (1 - (i : K) / ((n : K) - 1))| + |end_ * ((i : K) / ((n : K) - 1))| :=
        abs_add _ _
    _ ≤ max |start| |end_| * (1 - (i : K) / ((n : K) - 1))
          + max |start| |end_| * ((i : K) / ((n : K) - 1)) := add_le_add a1 a2
    _ = max |start| |end_| := by ring
    _ < B := hm

/-- C18, amended: for every sweep `LinSpace(start, end, n)` with `n ≥ 2`, with `start` and
`end` below `2^63` in absolute value, and whose step `|end - start| / (n - 1)` is at least 2,
or is at least 1 with `start` and `end` both non-negative or both non-positive, every integer
SNR suffix `int(snr)` lies within the range of the 64-bit `int` and the suffixes used to name
the output files are pairwise distinct across the sweep points, so none of the written
files overwrites another. -/
theorem C18_suffixes_distinct {K : Type} [LinearOrderedField K] [FloorRing K]
    (start end_ : K) (n : Nat) (hn : 2 ≤ n)
    (hs : |start| < 2 ^ 63) (he : |end_| < 2 ^ 63)
    (hstep : 2 ≤ |end_ - start| / ((n : K) - 1) ∨
      (1 ≤ |end_ - start| / ((n : K) - 1) ∧
        ((0 ≤ start ∧ 0 ≤ end_) ∨ (start ≤ 0 ∧ end_ ≤ 0)))) :
    ∃ snrList, LinSpace start end_ (n : Int) = some snrList ∧ snrList.length = n ∧
      (∀ z ∈ Float64sToInts snrList, -2 ^ 63 < z ∧ z < 2 ^ 63) ∧
      (Float64sToInts snrList).Nodup := by
  refine ⟨_, LinSpace_eq start end_ n (by omega), by simp, ?_, ?_⟩
  · intro z hz
    simp only [Float64sToInts, List.map_map, List.mem_map, List.mem_range,
      Function.comp] at hz
    obtain ⟨i, hi, rfl⟩ := hz
    exact truncToInt_in_range _ (sweep_point_abs_lt start end_ _ n i hn hi hs he)
  · unfold Float64sToInts
    rw [List.map_map]
    apply List.Nodup.map_on _ (List.nodup_range n)
    intro i hi j hj heq
    by_contra hij
    have hi2 : i < n := List.mem_range.mp hi
    have hj2 : j < n := List.mem_range.mp hj
    have hd := sweep_point_dist start end_ n i j hn hij
    simp only [Function.comp] at heq
    rcases hstep with h2 | ⟨h1, hs | hs⟩
    · exact truncToInt_ne_of_two_le _ _ (le_trans h2 hd) heq
    · exact truncToInt_ne_of_one_le_nonneg _ _
        ((sweep_point_sign start end_ n i hn hi2).1 hs.1 hs.2)
        ((sweep_point_sign start end_ n j hn hj2).1 hs.1 hs.2) (le_trans h1 hd) heq
    · exact truncToInt_ne_of_one_le_nonpos _ _
        ((sweep_point_sign start end_ n i hn hi2).2 hs.1 hs.2)
        ((sweep_point_sign start end_ n j hn hj2).2 hs.1 hs.2) (le_trans h1 hd) heq

theorem C18_suffixes_distinct_witness :
    (2 : Nat) ≤ 19 ∧ |(-40 : ℚ)| < 2 ^ 63 ∧ |(40 : ℚ)| < 2 ^ 63 ∧
    ((2 : ℚ) ≤ |(40 : ℚ) - (-40)| / (((19 : Nat) : ℚ) - 1) ∨
      (1 ≤ |(40 : ℚ) - (-40)| / (((19 : Nat) : ℚ) - 1) ∧
        ((0 ≤ (-40 : ℚ) ∧ 0 ≤ (40 : ℚ)) ∨ ((-40 : ℚ) ≤ 0 ∧ (40 : ℚ) ≤ 0)))) ∧
    ∃ snrList, LinSpace (-40 : ℚ) 40 ((19 : Nat) : Int) = some snrList ∧
      snrList.length = 19 ∧
      (∀ z ∈ Float64sToInts snrList, -2 ^ 63 < z ∧ z < 2 ^ 63) ∧
      (Float64sToInts snrList).Nodup := by
  have hs : |(-40 : ℚ)| < 2 ^ 63 := by norm_num [abs_lt]
  have he : |(40 : ℚ)| < 2 ^ 63 := by norm_num [abs_lt]
  have hstep : (2 : ℚ) ≤ |(40 : ℚ) - (-40)| / (((19 : Nat) : ℚ) - 1) ∨
      (1 ≤ |(40 : ℚ) - (-40)| / (((19 : Nat) : ℚ) - 1) ∧
        ((0 ≤ (-40 : ℚ) ∧ 0 ≤ (40 : ℚ)) ∨ ((-40 : ℚ) ≤ 0 ∧ (40 : ℚ) ≤ 0))) := by
    left
    norm_num
  exact ⟨by decide, hs, he, hstep,
    C18_suffixes_distinct (-40 : ℚ) 40 19 (by decide) hs he hstep⟩

end Goresearch
